import Mathlib

/-!
Verification development for the gamebryo plugin-management extension.

The code is shallowly embedded: strings are modelled as lists of characters
(`Str`), the JS objects that hold per-plugin load-order records are modelled
as association lists in insertion order (`PluginMap`), asynchronous callbacks
are modelled as pure functions of the data they read, and the external LOOT
sort engine is modelled as an oracle function returning typed outcomes
(mirroring the string matching performed on its error messages).
-/

namespace PluginMgmt

/-- Strings are modelled as lists of characters so that splitting and joining
file content can be reasoned about by structural induction. -/
abbrev Str := List Char

/-- Lowercasing of a string, as performed by `String.prototype.toLowerCase`
on the plugin names (modelled per character). -/
def toLower (s : Str) : Str := s.map Char.toLower

/-- One load-order record, from `types/ILoadOrder`: `enabled` flag plus the
integer rank (`-1` is the "not yet positioned" sentinel). -/
structure ILoadOrder where
  enabled : Bool
  loadOrder : Int
  deriving Repr, DecidableEq, Inhabited

/-- The `IPluginMap` of `PluginPersistor`: a JS object keyed by plugin id.
Modelled as an association list in insertion order (which is what
`Object.keys` iterates for the non-numeric keys used here). -/
abbrev PluginMap := List (Str × ILoadOrder)

/-- Lookup of `obj[key]`, `undefined` becoming `none`. -/
def lookupP : PluginMap → Str → Option ILoadOrder
  | [], _ => none
  | (k, v) :: m, key => if k = key then some v else lookupP m key

/-- Assignment `obj[key] = value`: updates the entry in place when the key
exists, otherwise appends it (JS insertion-order semantics). -/
def upsert : PluginMap → Str → ILoadOrder → PluginMap
  | [], key, v => [(key, v)]
  | (k, w) :: m, key, v =>
    if k = key then (k, v) :: m else (k, w) :: upsert m key v

@[simp] theorem lookupP_nil (key : Str) : lookupP [] key = none := rfl

@[simp] theorem lookupP_cons (k : Str) (v : ILoadOrder) (m : PluginMap) (key : Str) :
    lookupP ((k, v) :: m) key = if k = key then some v else lookupP m key := rfl

@[simp] theorem upsert_nil (key : Str) (v : ILoadOrder) : upsert [] key v = [(key, v)] := rfl

@[simp] theorem upsert_cons (k : Str) (w : ILoadOrder) (m : PluginMap) (key : Str) (v : ILoadOrder) :
    upsert ((k, w) :: m) key v
      = if k = key then (k, v) :: m else (k, w) :: upsert m key v := rfl

theorem lookupP_upsert (m : PluginMap) (key : Str) (v : ILoadOrder) :
    lookupP (upsert m key v) key = some v := by
  induction m with
  | nil => simp
  | cons p m ih =>
    obtain ⟨k, w⟩ := p
    by_cases h : k = key <;> simp [h, ih]

theorem lookupP_upsert_ne (m : PluginMap) (key key' : Str) (v : ILoadOrder)
    (h : key ≠ key') : lookupP (upsert m key v) key' = lookupP m key' := by
  induction m with
  | nil => simp [h]
  | cons p m ih =>
    obtain ⟨k, w⟩ := p
    by_cases hk : k = key
    · subst hk
      simp [h]
    · simp only [upsert_cons, if_neg hk, lookupP_cons]
      by_cases hk' : k = key' <;> simp [hk', ih]

theorem upsert_keys_of_mem (m : PluginMap) (key : Str) (v : ILoadOrder)
    (h : (lookupP m key).isSome) : (upsert m key v).map Prod.fst = m.map Prod.fst := by
  induction m with
  | nil => simp [lookupP] at h
  | cons p m ih =>
    obtain ⟨k, w⟩ := p
    by_cases hk : k = key
    · simp [hk]
    · simp only [lookupP_cons, if_neg hk] at h
      simp [hk, ih h]

theorem upsert_keys_of_not_mem (m : PluginMap) (key : Str) (v : ILoadOrder)
    (h : lookupP m key = none) :
    upsert m key v = m ++ [(key, v)] := by
  induction m with
  | nil => simp
  | cons p m ih =>
    obtain ⟨k, w⟩ := p
    by_cases hk : k = key
    · simp [hk] at h
    · simp only [lookupP_cons, if_neg hk] at h
      simp [hk, ih h]

theorem lookupP_eq_none_iff (m : PluginMap) (key : Str) :
    lookupP m key = none ↔ key ∉ m.map Prod.fst := by
  induction m with
  | nil => simp
  | cons p m ih =>
    obtain ⟨k, w⟩ := p
    by_cases hk : k = key
    · subst hk
      simp
    · simp only [lookupP_cons, if_neg hk, List.map_cons, List.mem_cons, not_or, ih]
      constructor
      · exact fun h => ⟨fun hek => hk hek.symm, h⟩
      · exact fun h => h.2

theorem lookupP_isSome_iff (m : PluginMap) (key : Str) :
    (lookupP m key).isSome ↔ key ∈ m.map Prod.fst := by
  rw [Option.isSome_iff_ne_none, Ne, lookupP_eq_none_iff, not_not]

theorem lookupP_append_left (m m' : PluginMap) (key : Str)
    (h : (lookupP m key).isSome) :
    lookupP (m ++ m') key = lookupP m key := by
  induction m with
  | nil => simp [lookupP] at h
  | cons p m ih =>
    obtain ⟨k, w⟩ := p
    by_cases hk : k = key
    · simp [hk]
    · simp only [lookupP_cons, if_neg hk] at h
      simp only [List.cons_append, lookupP_cons, if_neg hk]
      exact ih h

theorem lookupP_append_right (m m' : PluginMap) (key : Str)
    (h : lookupP m key = none) :
    lookupP (m ++ m') key = lookupP m' key := by
  induction m with
  | nil => simp
  | cons p m ih =>
    obtain ⟨k, w⟩ := p
    by_cases hk : k = key
    · simp [hk] at h
    · simp only [lookupP_cons, if_neg hk] at h
      simp only [List.cons_append, lookupP_cons, if_neg hk]
      exact ih h

/-- The two on-disk encodings, `PluginFormat` in `PluginPersistor.ts`. -/
inductive PluginFormat where
  | original
  | fallout4
  deriving Repr, DecidableEq

/-- Splitting a character list at every line feed (the `\n` of the regular
expression `/\r?\n/` used by `filterFileData`). -/
def splitNL : Str → List Str
  | [] => [[]]
  | c :: rest =>
    if c = '\n' then [] :: splitNL rest
    else
      match splitNL rest with
      | [] => [[c]]
      | l :: ls => (c :: l) :: ls

/-- Remove the single carriage return that `/\r?\n/` consumes together with
the following line feed. -/
def stripCR (l : Str) : Str := if l.getLast? = some '\r' then l.dropLast else l

/-- Strip the carriage return from every segment that was terminated by a
line feed — that is, from every segment except the last.  The final segment
has no following line feed, so `/\r?\n/` never consumes a carriage return
it may end with. -/
def stripSegs : List Str → List Str
  | [] => []
  | [l] => [l]
  | l :: l' :: ls => stripCR l :: stripSegs (l' :: ls)

/-- Splitting on `/\r?\n/` as performed by `filterFileData` on the file
content: split at line feeds, then drop the carriage return that immediately
preceded each line feed (only the last character of a non-final segment can
have been adjacent to a line feed; a lone trailing carriage return is
ordinary content). -/
def splitLines (s : Str) : List Str := stripSegs (splitNL s)

/-- A string free of line separators (no carriage return, no line feed);
plugin file names are such strings. -/
def cleanLine (s : Str) : Prop := ∀ c ∈ s, c ≠ '\r' ∧ c ≠ '\n'

instance (s : Str) : Decidable (cleanLine s) := by
  unfold cleanLine
  infer_instance

theorem splitNL_ne_nil (s : Str) : splitNL s ≠ [] := by
  induction s with
  | nil => simp [splitNL]
  | cons c rest ih =>
    rw [splitNL.eq_def]
    by_cases hc : c = '\n'
    · simp [hc]
    · simp only [if_neg hc]
      cases hs : splitNL rest with
      | nil => simp
      | cons l ls => simp

theorem splitNL_no_nl (l : Str) (h : '\n' ∉ l) : splitNL l = [l] := by
  induction l with
  | nil => simp [splitNL]
  | cons c rest ih =>
    simp only [List.mem_cons, not_or] at h
    have hne : ¬ c = '\n' := fun hc => h.1 hc.symm
    rw [splitNL.eq_def]
    simp only [if_neg hne]
    rw [ih h.2]

theorem splitNL_append_nl (l rest : Str) (h : '\n' ∉ l) :
    splitNL (l ++ '\n' :: rest) = l :: splitNL rest := by
  induction l with
  | nil => simp [splitNL]
  | cons c l ih =>
    simp only [List.mem_cons, not_or] at h
    have hne : ¬ c = '\n' := fun hc => h.1 hc.symm
    rw [List.cons_append, splitNL.eq_def]
    simp only [if_neg hne]
    rw [ih h.2]

theorem stripCR_no_cr (l : Str) (h : '\r' ∉ l) : stripCR l = l := by
  unfold stripCR
  cases hl : l.getLast? with
  | none => simp
  | some c =>
    have hmem : c ∈ l := by
      have hopt : c ∈ l.getLast? := by simp [hl, Option.mem_def]
      obtain ⟨hne, hc⟩ := List.mem_getLast?_eq_getLast hopt
      exact hc ▸ List.getLast_mem hne
    by_cases hc : c = '\r'
    · exact absurd (hc ▸ hmem) h
    · rw [if_neg (by simp [hc])]

theorem stripCR_append_cr (l : Str) : stripCR (l ++ ['\r']) = l := by
  unfold stripCR
  simp

/-- The CRLF separator the persistor writes between lines. -/
def crlf : Str := ['\r', '\n']

/-- `lines.join('\r\n')` from `doSerialize`. -/
def joinCRLF (ls : List Str) : Str := List.intercalate crlf ls

theorem joinCRLF_singleton (l : Str) : joinCRLF [l] = l := by
  simp [joinCRLF, List.intercalate]

theorem joinCRLF_cons (l l' : Str) (ls : List Str) :
    joinCRLF (l :: l' :: ls) = l ++ crlf ++ joinCRLF (l' :: ls) := by
  simp [joinCRLF, List.intercalate, List.intersperse, List.append_assoc]

theorem stripSegs_cons_of_ne_nil (a : Str) (ls : List Str) (h : ls ≠ []) :
    stripSegs (a :: ls) = stripCR a :: stripSegs ls := by
  cases ls with
  | nil => exact absurd rfl h
  | cons l' ls' => rfl

theorem splitLines_append_crlf (l rest : Str) (h : cleanLine l) :
    splitLines (l ++ crlf ++ rest) = l :: splitLines rest := by
  unfold splitLines
  have hcat : l ++ crlf ++ rest = (l ++ ['\r']) ++ '\n' :: rest := by
    simp [crlf]
  have hnl : '\n' ∉ l ++ ['\r'] := by
    intro hmem
    rcases List.mem_append.mp hmem with hm | hm
    · exact (h _ hm).2 rfl
    · simp at hm
  rw [hcat, splitNL_append_nl _ _ hnl,
    stripSegs_cons_of_ne_nil _ _ (splitNL_ne_nil rest), stripCR_append_cr]

theorem splitLines_clean (l : Str) (h : cleanLine l) : splitLines l = [l] := by
  unfold splitLines
  rw [splitNL_no_nl l (fun hm => (h _ hm).2 rfl)]
  rfl

theorem splitLines_joinCRLF (ls : List Str) (hne : ls ≠ [])
    (h : ∀ l ∈ ls, cleanLine l) : splitLines (joinCRLF ls) = ls := by
  induction ls with
  | nil => exact absurd rfl hne
  | cons l ls ih =>
    cases ls with
    | nil =>
      rw [joinCRLF_singleton]
      exact splitLines_clean l (h l (by simp))
    | cons l' ls' =>
      rw [joinCRLF_cons, splitLines_append_crlf l _ (h l (by simp)),
        ih (by simp) (fun x hx => h x (List.mem_cons_of_mem _ hx))]

/-- `filterFileData` of `PluginPersistor`: split the file content on
`/\r?\n/` and keep the lines that are nonempty and are not `#` comments. -/
def filterFileData (input : Str) : List Str :=
  (splitLines input).filter (fun l => decide (l.head? ≠ some '#' ∧ l ≠ []))

/-- The generated-file comment `doSerialize` puts at the top of both files. -/
def header : Str := ("# Automatically generated by Vortex").toList

/-- A plugin name as it can actually occur on disk and in the store: nonempty,
not a `#` comment line, and free of line separators. -/
def wellFormedName (s : Str) : Prop :=
  s ≠ [] ∧ s.head? ≠ some '#' ∧ cleanLine s

instance (s : Str) : Decidable (wellFormedName s) := by
  unfold wellFormedName
  infer_instance

theorem header_cleanLine : cleanLine header := by decide

theorem filterFileData_serialized (names : List Str)
    (h : ∀ n ∈ names, wellFormedName n) :
    filterFileData (header ++ crlf ++ joinCRLF names) = names := by
  cases names with
  | nil =>
    have : header ++ crlf ++ joinCRLF [] = header ++ crlf ++ [] := rfl
    rw [this, List.append_nil]
    have hsep : splitLines (header ++ crlf ++ ([] : Str)) = header :: splitLines [] :=
      splitLines_append_crlf header [] header_cleanLine
    rw [List.append_nil] at hsep
    unfold filterFileData
    rw [hsep]
    decide
  | cons n ns =>
    unfold filterFileData
    rw [splitLines_append_crlf header _ header_cleanLine,
      splitLines_joinCRLF (n :: ns) (by simp) (fun l hl => (h l hl).2.2)]
    rw [List.filter_cons]
    have hhdr : ¬ (header.head? ≠ some '#' ∧ header ≠ []) := by decide
    simp only [decide_eq_true_eq, hhdr, if_false, if_neg]
    rw [List.filter_eq_self.mpr]
    intro a ha
    have hwf := h a ha
    simp [hwf.1, hwf.2.1]

/-- The JS `Array.from(new Set(keys))` in `initFromKeyList`: remove
duplicates keeping the first occurrence of each key. -/
def dedupFirst : List Str → List Str
  | [] => []
  | k :: ks => k :: (dedupFirst ks).filter (fun x => decide (x ≠ k))

theorem dedupFirst_of_nodup (ks : List Str) (h : ks.Nodup) : dedupFirst ks = ks := by
  induction ks with
  | nil => rfl
  | cons k ks ih =>
    rw [List.nodup_cons] at h
    unfold dedupFirst
    rw [ih h.2, List.filter_eq_self.mpr]
    intro a ha
    simp only [decide_eq_true_eq]
    exact fun he => h.1 (he ▸ ha)

theorem mem_dedupFirst (ks : List Str) (k : Str) : k ∈ dedupFirst ks ↔ k ∈ ks := by
  induction ks with
  | nil => simp [dedupFirst]
  | cons a ks ih =>
    unfold dedupFirst
    by_cases hk : k = a
    · simp [hk]
    · simp only [List.mem_cons, List.mem_filter, ih, decide_eq_true_eq]
      constructor
      · rintro (h | h)
        · exact Or.inl h
        · exact Or.inr h.1
      · rintro (h | h)
        · exact Or.inl h
        · exact Or.inr ⟨h, hk⟩

/-- One iteration of the `transformedKeys.forEach` loop in
`initFromKeyList`.  The state is the plugin map under construction together
with the running `loadOrderPos`. -/
def initStep (fmt : PluginFormat) (natives : List Str) (enable : Bool)
    (st : PluginMap × ℕ) (key0 : Str) : PluginMap × ℕ :=
  let m := st.1
  let pos := st.2
  let keyEnabled : Bool :=
    enable && (decide (fmt = PluginFormat.original) || decide (key0.head? = some '*'))
  let key : Str :=
    if fmt = PluginFormat.fallout4 ∧ key0.head? = some '*' then key0.tail else key0
  if fmt = PluginFormat.fallout4 ∧ key ∈ natives then (m, pos)
  else
    let cur : ILoadOrder := (lookupP m key).getD ⟨false, -1⟩
    let enabled : Bool := keyEnabled || decide (key ∈ natives)
    if cur.loadOrder = -1 then
      (upsert m key ⟨enabled, (pos : Int)⟩, pos + 1)
    else
      (upsert m key ⟨enabled, cur.loadOrder⟩, pos)

/-- `initFromKeyList` of `PluginPersistor`: lowercase the keys, eliminate
duplicates, then fold `initStep` over them.  Returns the updated map and the
next free order slot (the function's return value). -/
def initFromKeyList (fmt : PluginFormat) (natives : List Str) (m : PluginMap)
    (keys : List Str) (enable : Bool) (offset : ℕ) : PluginMap × ℕ :=
  (dedupFirst (keys.map toLower)).foldl (initStep fmt natives enable) (m, offset)

/-- The body of `deserialize` once the file contents have been read and
filtered: for the original format `loadorder.txt` seeds the order with
`enable = false`, then `plugins.txt` is applied with `enable = true`; for
the fallout4 format only `plugins.txt` is consulted. -/
def deserializePure (fmt : PluginFormat) (natives : List Str)
    (loKeys plKeys : List Str) : PluginMap :=
  match fmt with
  | PluginFormat.original =>
    let first := initFromKeyList fmt natives [] loKeys false 0
    (initFromKeyList fmt natives first.1 plKeys true first.2).1
  | PluginFormat.fallout4 =>
    (initFromKeyList fmt natives [] plKeys true 0).1

/-- `deserialize` as a function of the two file contents.  The transient
empty-`plugins.txt` retry re-reads the same files, so on fixed contents it
reduces to this same parse (the retry/ENOENT control flow is modelled
separately in `deserializeM`). -/
def deserializeFiles (fmt : PluginFormat) (natives : List Str)
    (loContent plContent : Str) : PluginMap :=
  deserializePure fmt natives
    (if fmt = PluginFormat.original then filterFileData loContent else [])
    (filterFileData plContent)

/-- `toPluginListOriginal`: keep the names whose record is enabled, native
plugins defaulting to enabled when they have no record. -/
def toPluginListOriginal (m : PluginMap) (natives : List Str)
    (input : List Str) : List Str :=
  input.filter (fun name =>
    match lookupP m (toLower name) with
    | some r => r.enabled
    | none => decide (toLower name ∈ natives))

/-- `toPluginListFallout4`: drop native plugins, then mark each enabled
plugin with a leading `*`. -/
def toPluginListFallout4 (m : PluginMap) (natives : List Str)
    (input : List Str) : List Str :=
  (input.filter (fun name => !(decide (toLower name ∈ natives)))).map
    (fun name =>
      if (match lookupP m (toLower name) with
          | some r => r.enabled
          | none => false) then '*' :: name else name)

/-- Dispatch of `toPluginList` on the plugin format. -/
def toPluginList (fmt : PluginFormat) (m : PluginMap) (natives : List Str)
    (input : List Str) : List Str :=
  match fmt with
  | PluginFormat.original => toPluginListOriginal m natives input
  | PluginFormat.fallout4 => toPluginListFallout4 m natives input

/-- The comparison `mPlugins[lhs].loadOrder - mPlugins[rhs].loadOrder` used
by `doSerialize` to sort the keys. -/
def loLE (p q : Str × ILoadOrder) : Prop := p.2.loadOrder ≤ q.2.loadOrder

instance : DecidableRel loLE := fun p q => by
  unfold loLE
  infer_instance

instance : IsTotal (Str × ILoadOrder) loLE :=
  ⟨fun p q => le_total p.2.loadOrder q.2.loadOrder⟩

instance : IsTrans (Str × ILoadOrder) loLE :=
  ⟨fun _ _ _ h h' => le_trans h h'⟩

/-- The sorted entry list of `doSerialize` (`Object.keys(..).sort(...)`
paired with the records).  Under the store invariant of pairwise distinct
`loadOrder` values the result of the JS comparator sort is the unique
ordering by ascending `loadOrder`, which insertion sort computes. -/
def sortByLoadOrder (m : PluginMap) : PluginMap := List.insertionSort loLE m

/-- Lookup in the `mKnownPlugins` dictionary (plugin id to file name). -/
def lookupA : List (Str × Str) → Str → Option Str
  | [], _ => none
  | (k, v) :: m, key => if k = key then some v else lookupA m key

/-- `doSerialize` restricted to its pure content computation: the key list
sorted by `loadOrder` (optionally translated through `mKnownPlugins`), and
the contents written to `loadorder.txt` and `plugins.txt`. -/
def doSerialize (fmt : PluginFormat) (natives : List Str)
    (known : Option (List (Str × Str))) (m : PluginMap) : Str × Str :=
  let sorted0 : List Str := (sortByLoadOrder m).map Prod.fst
  let sorted : List Str :=
    match known with
    | none => sorted0
    | some kp =>
      (sorted0.filter (fun pluginId => (lookupA kp pluginId).isSome)).map
        (fun pluginId => (lookupA kp pluginId).getD pluginId)
  (header ++ crlf ++ joinCRLF sorted,
   header ++ crlf ++ joinCRLF (toPluginList fmt m natives sorted))

/-- Serialize to the two files, then deserialize them again. -/
def roundTrip (fmt : PluginFormat) (natives : List Str) (m : PluginMap) : PluginMap :=
  let contents := doSerialize fmt natives none m
  deserializeFiles fmt natives contents.1 contents.2

/-- The records produced when `initFromKeyList` walks a list of keys none of
which is present yet: each key is appended with the next order slot. -/
def freshRecords (natives : List Str) (en : Bool) : ℕ → List Str → PluginMap
  | _, [] => []
  | pos, k :: ks =>
    (k, ⟨en || decide (k ∈ natives), (pos : Int)⟩) :: freshRecords natives en (pos + 1) ks

/-- Dense re-ranking: the entries in their final order, `loadOrder` replaced
by consecutive ranks starting at `pos`. -/
def denseRankFrom : ℕ → PluginMap → PluginMap
  | _, [] => []
  | pos, (k, r) :: ps => (k, ⟨r.enabled, (pos : Int)⟩) :: denseRankFrom (pos + 1) ps

/-- Dense re-ranking of a whole map in `loadOrder`-sorted order. -/
def denseRank (m : PluginMap) : PluginMap := denseRankFrom 0 (sortByLoadOrder m)

/-- The effect of the second `initFromKeyList` pass (original format,
`enable = true`) on a map whose listed keys are all present with an assigned
slot: each such entry has `enabled` recomputed, `loadOrder` untouched. -/
def pass2Update (natives : List Str) (keyset : List Str) (m : PluginMap) : PluginMap :=
  m.map (fun p =>
    if p.1 ∈ keyset then (p.1, ⟨true || decide (p.1 ∈ natives), p.2.loadOrder⟩) else p)

theorem initStep_fresh_original (natives : List Str) (en : Bool) (m : PluginMap)
    (pos : ℕ) (k : Str) (h : lookupP m k = none) :
    initStep PluginFormat.original natives en (m, pos) k
      = (m ++ [(k, ⟨en || decide (k ∈ natives), (pos : Int)⟩)], pos + 1) := by
  unfold initStep
  simp only [decide_eq_true_eq]
  rw [if_neg (by simp)]
  have hfalse : ¬ (PluginFormat.original = PluginFormat.fallout4 ∧ k.head? = some '*') := by
    simp
  rw [if_neg hfalse, h]
  simp only [Option.getD_some, Option.getD_none, if_pos rfl]
  rw [upsert_keys_of_not_mem m k _ h]
  simp

theorem initStep_existing_original (natives : List Str) (en : Bool) (m : PluginMap)
    (pos : ℕ) (k : Str) (r : ILoadOrder) (h : lookupP m k = some r)
    (hlo : r.loadOrder ≠ -1) :
    initStep PluginFormat.original natives en (m, pos) k
      = (upsert m k ⟨en || decide (k ∈ natives), r.loadOrder⟩, pos) := by
  unfold initStep
  rw [if_neg (by simp)]
  have hfalse : ¬ (PluginFormat.original = PluginFormat.fallout4 ∧ k.head? = some '*') := by
    simp
  rw [if_neg hfalse, h]
  simp only [Option.getD_some, if_neg hlo]
  simp

theorem freshRecords_map_fst (natives : List Str) (en : Bool) (pos : ℕ)
    (names : List Str) :
    (freshRecords natives en pos names).map Prod.fst = names := by
  induction names generalizing pos with
  | nil => rfl
  | cons k ks ih => simp [freshRecords, ih]

theorem lookupP_freshRecords_of_mem (natives : List Str) (en : Bool) (pos : ℕ)
    (names : List Str) (k : Str) (h : k ∈ names) :
    ∃ r, lookupP (freshRecords natives en pos names) k = some r ∧ 0 ≤ r.loadOrder := by
  induction names generalizing pos with
  | nil => simp at h
  | cons a ks ih =>
    rw [List.mem_cons] at h
    by_cases hk : a = k
    · subst hk
      exact ⟨⟨en || decide (a ∈ natives), (pos : Int)⟩, by simp [freshRecords],
        Int.natCast_nonneg pos⟩
    · have hm : k ∈ ks := h.resolve_left (fun he => hk he.symm)
      obtain ⟨r, hr, hr0⟩ := ih (pos + 1) hm
      exact ⟨r, by simp [freshRecords, hk, hr], hr0⟩

theorem foldl_initStep_fresh_original (natives : List Str) (en : Bool)
    (names : List Str) (m : PluginMap) (pos : ℕ)
    (hnd : names.Nodup) (hfresh : ∀ k ∈ names, lookupP m k = none) :
    names.foldl (initStep PluginFormat.original natives en) (m, pos)
      = (m ++ freshRecords natives en pos names, pos + names.length) := by
  induction names generalizing m pos with
  | nil => simp [freshRecords]
  | cons k ks ih =>
    rw [List.nodup_cons] at hnd
    rw [List.foldl_cons,
      initStep_fresh_original natives en m pos k (hfresh k (by simp))]
    rw [ih _ _ hnd.2]
    · simp [freshRecords, List.append_assoc, Nat.add_assoc, Nat.add_comm 1 ks.length]
    · intro k' hk'
      rw [lookupP_append_right _ _ _ (hfresh k' (List.mem_cons_of_mem _ hk'))]
      have hne : k ≠ k' := fun he => hnd.1 (he ▸ hk')
      simp [lookupP, fun he : k = k' => hne he]

theorem upsert_eq_map (m : PluginMap) (k : Str) (v : ILoadOrder)
    (hnd : (m.map Prod.fst).Nodup) (h : (lookupP m k).isSome) :
    upsert m k v = m.map (fun p => if p.1 = k then (k, v) else p) := by
  induction m with
  | nil => simp [lookupP] at h
  | cons p m ih =>
    obtain ⟨a, w⟩ := p
    simp only [List.map_cons, List.nodup_cons] at hnd
    by_cases hk : a = k
    · subst hk
      have h1 : upsert ((a, w) :: m) a v = (a, v) :: m := by
        rw [upsert_cons, if_pos rfl]
      have h2 : ((a, w) :: m).map (fun p => if p.1 = a then (a, v) else p)
          = (a, v) :: m.map (fun p => if p.1 = a then (a, v) else p) := by
        simp
      rw [h1, h2]
      congr 1
      have hq : ∀ q ∈ m, (fun p : Str × ILoadOrder => if p.1 = a then (a, v) else p) q = q := by
        intro q hqm
        have hne : q.1 ≠ a := fun he => hnd.1 (he ▸ List.mem_map_of_mem Prod.fst hqm)
        simp [hne]
      rw [List.map_congr_left hq, List.map_id']
    · simp only [lookupP_cons, if_neg hk] at h
      simp only [upsert_cons, if_neg hk, List.map_cons, if_neg hk, ih hnd.2 h]

theorem pass2Update_nil_keys (natives : List Str) (m : PluginMap) :
    pass2Update natives [] m = m := by
  unfold pass2Update
  have hq : ∀ p : Str × ILoadOrder, p ∈ m →
      (if p.1 ∈ ([] : List Str)
        then ((p.1, ⟨true || decide (p.1 ∈ natives), p.2.loadOrder⟩) : Str × ILoadOrder)
        else p) = p := fun p _ => by simp
  rw [List.map_congr_left hq, List.map_id']

theorem lookupP_of_mem_nodup (m : PluginMap) (p : Str × ILoadOrder)
    (hnd : (m.map Prod.fst).Nodup) (hp : p ∈ m) : lookupP m p.1 = some p.2 := by
  induction m with
  | nil => simp at hp
  | cons q m ih =>
    simp only [List.map_cons, List.nodup_cons] at hnd
    rcases List.mem_cons.mp hp with he | hm
    · subst he
      obtain ⟨a, b⟩ := p
      simp
    · have hne : q.1 ≠ p.1 := fun heq => hnd.1 (heq ▸ List.mem_map_of_mem Prod.fst hm)
      obtain ⟨a, b⟩ := q
      simp only [lookupP_cons, if_neg hne]
      exact ih hnd.2 hm

theorem foldl_initStep_existing_original (natives : List Str)
    (keys : List Str) (m : PluginMap) (pos : ℕ)
    (hknd : keys.Nodup) (hmnd : (m.map Prod.fst).Nodup)
    (hpresent : ∀ k ∈ keys, ∃ r, lookupP m k = some r ∧ r.loadOrder ≠ -1) :
    keys.foldl (initStep PluginFormat.original natives true) (m, pos)
      = (pass2Update natives keys m, pos) := by
  induction keys generalizing m with
  | nil => simp [pass2Update_nil_keys]
  | cons k ks ih =>
    rw [List.nodup_cons] at hknd
    obtain ⟨r, hr, hrlo⟩ := hpresent k (by simp)
    rw [List.foldl_cons, initStep_existing_original natives true m pos k r hr hrlo]
    have hsome : (lookupP m k).isSome := by simp [hr]
    have hmnd' : ((upsert m k ⟨true || decide (k ∈ natives), r.loadOrder⟩).map Prod.fst).Nodup := by
      rw [upsert_keys_of_mem m k _ hsome]
      exact hmnd
    have hpresent' : ∀ k' ∈ ks,
        ∃ r', lookupP (upsert m k ⟨true || decide (k ∈ natives), r.loadOrder⟩) k' = some r'
          ∧ r'.loadOrder ≠ -1 := by
      intro k' hk'
      have hne : k ≠ k' := fun he => hknd.1 (he ▸ hk')
      rw [lookupP_upsert_ne m k k' _ hne]
      exact hpresent k' (List.mem_cons_of_mem _ hk')
    rw [ih _ hknd.2 hmnd' hpresent']
    congr 1
    rw [upsert_eq_map m k _ hmnd hsome]
    unfold pass2Update
    rw [List.map_map]
    refine List.map_congr_left (fun p hp => ?_)
    have hlp : lookupP m p.1 = some p.2 := lookupP_of_mem_nodup m p hmnd hp
    by_cases hpk : p.1 = k
    · have hp2 : p.2 = r := by
        rw [hpk] at hlp
        exact Option.some.inj (hlp.symm.trans hr)
    -- the freshly updated entry is not touched again (its key is not in ks),
    -- and updating it in the combined pass gives the same record
      simp only [Function.comp_apply, if_pos hpk]
      rw [if_neg (by simpa using fun hmem => hknd.1 hmem), if_pos (by simp [hpk])]
      rw [hpk, hp2]
    · simp only [Function.comp_apply, if_neg hpk]
      by_cases hks : p.1 ∈ ks
      · rw [if_pos hks, if_pos (by simp [hks])]
      · rw [if_neg hks, if_neg (by simp [hpk, hks])]

theorem pass2Update_freshRecords (natives plKeys : List Str) (ps : PluginMap) (pos : ℕ)
    (h : ∀ p ∈ ps, (p.1 ∈ plKeys ↔ p.2.enabled = true) ∧ (p.2.enabled = false → p.1 ∉ natives)) :
    pass2Update natives plKeys (freshRecords natives false pos (ps.map Prod.fst))
      = denseRankFrom pos ps := by
  induction ps generalizing pos with
  | nil => rfl
  | cons p ps ih =>
    obtain ⟨k, r⟩ := p
    obtain ⟨hiff, hnat⟩ := h (k, r) (by simp)
    have hrec : freshRecords natives false pos (((k, r) :: ps).map Prod.fst)
        = (k, ⟨false || decide (k ∈ natives), (pos : Int)⟩)
          :: freshRecords natives false (pos + 1) (ps.map Prod.fst) := by
      simp [freshRecords]
    rw [hrec]
    unfold pass2Update
    rw [List.map_cons]
    have htail : pass2Update natives plKeys (freshRecords natives false (pos + 1) (ps.map Prod.fst))
        = denseRankFrom (pos + 1) ps :=
      ih (pos + 1) (fun q hq => h q (List.mem_cons_of_mem _ hq))
    unfold pass2Update at htail
    rw [htail]
    have hhead : (if k ∈ plKeys
        then ((k, ⟨true || decide (k ∈ natives), (pos : Int)⟩) : Str × ILoadOrder)
        else (k, ⟨false || decide (k ∈ natives), (pos : Int)⟩))
        = (k, ⟨r.enabled, (pos : Int)⟩) := by
      cases hr : r.enabled with
      | true =>
        rw [if_pos (hiff.mpr hr)]
        simp
      | false =>
        rw [if_neg (fun hmem => Bool.false_ne_true (hr.symm.trans (hiff.mp hmem)))]
        simp [decide_eq_false (hnat hr)]
    rw [denseRankFrom]
    rw [← hhead]

theorem initStep_fallout4_star (natives : List Str) (m : PluginMap) (pos : ℕ) (k : Str)
    (hk : lookupP m k = none) (hn : k ∉ natives) :
    initStep PluginFormat.fallout4 natives true (m, pos) ('*' :: k)
      = (m ++ [(k, ⟨true, (pos : Int)⟩)], pos + 1) := by
  unfold initStep
  have hstrip : (if PluginFormat.fallout4 = PluginFormat.fallout4
      ∧ ('*' :: k : Str).head? = some '*' then ('*' :: k : Str).tail else ('*' :: k : Str)) = k := by
    rw [if_pos ⟨rfl, rfl⟩]
    rfl
  rw [hstrip]
  rw [if_neg (fun hc => hn hc.2), hk]
  simp only [Option.getD_none, if_pos rfl]
  rw [upsert_keys_of_not_mem m k _ hk]
  simp

theorem initStep_fallout4_nostar (natives : List Str) (m : PluginMap) (pos : ℕ) (k : Str)
    (hk : lookupP m k = none) (hn : k ∉ natives) (hh : k.head? ≠ some '*') :
    initStep PluginFormat.fallout4 natives true (m, pos) k
      = (m ++ [(k, ⟨false, (pos : Int)⟩)], pos + 1) := by
  unfold initStep
  have hstrip : (if PluginFormat.fallout4 = PluginFormat.fallout4
      ∧ (k : Str).head? = some '*' then (k : Str).tail else k) = k := by
    rw [if_neg (fun hc => hh hc.2)]
  rw [hstrip]
  rw [if_neg (fun hc => hn hc.2), hk]
  simp only [Option.getD_none, if_pos rfl]
  rw [upsert_keys_of_not_mem m k _ hk]
  simp [hh, decide_eq_false hn]

/-- How `toPluginListFallout4` renders one entry: a `*` prefix exactly when
the record is enabled. -/
def markStar (p : Str × ILoadOrder) : Str :=
  if p.2.enabled then '*' :: p.1 else p.1

theorem foldl_initStep_fresh_fallout4 (natives : List Str) (ps : PluginMap)
    (m0 : PluginMap) (pos : ℕ) (hnd : (ps.map Prod.fst).Nodup)
    (hp : ∀ p ∈ ps, p.1 ∉ natives ∧ p.1.head? ≠ some '*' ∧ lookupP m0 p.1 = none) :
    (ps.map markStar).foldl (initStep PluginFormat.fallout4 natives true) (m0, pos)
      = (m0 ++ denseRankFrom pos ps, pos + ps.length) := by
  induction ps generalizing m0 pos with
  | nil => simp [denseRankFrom]
  | cons p ps ih =>
    obtain ⟨k, r⟩ := p
    simp only [List.map_cons, List.nodup_cons] at hnd
    obtain ⟨hn, hh, hk⟩ := hp (k, r) (by simp)
    have hstep : initStep PluginFormat.fallout4 natives true (m0, pos) (markStar (k, r))
        = (m0 ++ [(k, ⟨r.enabled, (pos : Int)⟩)], pos + 1) := by
      cases hr : r.enabled with
      | true =>
        unfold markStar
        rw [hr, if_pos rfl]
        exact initStep_fallout4_star natives m0 pos k hk hn
      | false =>
        unfold markStar
        rw [hr, if_neg (by simp)]
        exact initStep_fallout4_nostar natives m0 pos k hk hn hh
    rw [List.map_cons, List.foldl_cons, hstep]
    have hfresh' : ∀ q ∈ ps, q.1 ∉ natives ∧ q.1.head? ≠ some '*'
        ∧ lookupP (m0 ++ [(k, ⟨r.enabled, (pos : Int)⟩)]) q.1 = none := by
      intro q hq
      obtain ⟨h1, h2, h3⟩ := hp q (List.mem_cons_of_mem _ hq)
      refine ⟨h1, h2, ?_⟩
      rw [lookupP_append_right _ _ _ h3]
      have hne : k ≠ q.1 := fun he => hnd.1 (he ▸ List.mem_map_of_mem Prod.fst hq)
      simp [lookupP, fun he : k = q.1 => hne he]
    rw [ih _ _ hnd.2 hfresh']
    simp [denseRankFrom, List.append_assoc, Nat.add_assoc, Nat.add_comm 1 ps.length]

theorem roundTrip_original_eq (natives : List Str) (m : PluginMap)
    (hnodup : (m.map Prod.fst).Nodup)
    (hwf : ∀ p ∈ m, wellFormedName p.1 ∧ toLower p.1 = p.1)
    (hnat : ∀ p ∈ m, p.1 ∈ natives → p.2.enabled = true) :
    roundTrip PluginFormat.original natives m = denseRank m := by
  have hperm : List.Perm (sortByLoadOrder m) m := List.perm_insertionSort loLE m
  have hnamesnd : ((sortByLoadOrder m).map Prod.fst).Nodup :=
    ((hperm.map Prod.fst).nodup_iff).mpr hnodup
  have hmemwf : ∀ n ∈ (sortByLoadOrder m).map Prod.fst, wellFormedName n ∧ toLower n = n := by
    intro n hn
    obtain ⟨p, hp, hpn⟩ := List.mem_map.mp hn
    exact hpn ▸ hwf p (hperm.mem_iff.mp hp)
  have hfilter : toPluginListOriginal m natives ((sortByLoadOrder m).map Prod.fst)
      = ((sortByLoadOrder m).map Prod.fst).filter
          (fun name => match lookupP m (toLower name) with
            | some r => r.enabled
            | none => decide (toLower name ∈ natives)) := rfl
  have hplwf : ∀ l ∈ toPluginListOriginal m natives ((sortByLoadOrder m).map Prod.fst),
      wellFormedName l ∧ toLower l = l := by
    intro l hl
    rw [hfilter] at hl
    exact hmemwf l (List.mem_of_mem_filter hl)
  have hplnd : (toPluginListOriginal m natives ((sortByLoadOrder m).map Prod.fst)).Nodup := by
    rw [hfilter]
    exact hnamesnd.filter _
  have hparse1 : filterFileData (header ++ crlf ++ joinCRLF ((sortByLoadOrder m).map Prod.fst))
      = (sortByLoadOrder m).map Prod.fst :=
    filterFileData_serialized _ (fun n hn => (hmemwf n hn).1)
  have hparse2 : filterFileData (header ++ crlf
        ++ joinCRLF (toPluginListOriginal m natives ((sortByLoadOrder m).map Prod.fst)))
      = toPluginListOriginal m natives ((sortByLoadOrder m).map Prod.fst) :=
    filterFileData_serialized _ (fun n hn => (hplwf n hn).1)
  have hid1 : dedupFirst (((sortByLoadOrder m).map Prod.fst).map toLower)
      = (sortByLoadOrder m).map Prod.fst := by
    rw [List.map_congr_left (fun n hn => (hmemwf n hn).2), List.map_id']
    exact dedupFirst_of_nodup _ hnamesnd
  have hid2 : dedupFirst ((toPluginListOriginal m natives
        ((sortByLoadOrder m).map Prod.fst)).map toLower)
      = toPluginListOriginal m natives ((sortByLoadOrder m).map Prod.fst) := by
    rw [List.map_congr_left (fun n hn => (hplwf n hn).2), List.map_id']
    exact dedupFirst_of_nodup _ hplnd
  have hpass1 : initFromKeyList PluginFormat.original natives []
      ((sortByLoadOrder m).map Prod.fst) false 0
      = (freshRecords natives false 0 ((sortByLoadOrder m).map Prod.fst),
         ((sortByLoadOrder m).map Prod.fst).length) := by
    unfold initFromKeyList
    rw [hid1, foldl_initStep_fresh_original natives false _ [] 0 hnamesnd
      (fun k _ => rfl)]
    simp
  have hpresent2 : ∀ k ∈ toPluginListOriginal m natives ((sortByLoadOrder m).map Prod.fst),
      ∃ r, lookupP (freshRecords natives false 0 ((sortByLoadOrder m).map Prod.fst)) k = some r
        ∧ r.loadOrder ≠ -1 := by
    intro k hk
    rw [hfilter] at hk
    obtain ⟨r, hr, hr0⟩ :=
      lookupP_freshRecords_of_mem natives false 0 _ k (List.mem_of_mem_filter hk)
    exact ⟨r, hr, by omega⟩
  have hpass2 : initFromKeyList PluginFormat.original natives
      (freshRecords natives false 0 ((sortByLoadOrder m).map Prod.fst))
      (toPluginListOriginal m natives ((sortByLoadOrder m).map Prod.fst)) true
      ((sortByLoadOrder m).map Prod.fst).length
      = (pass2Update natives (toPluginListOriginal m natives ((sortByLoadOrder m).map Prod.fst))
          (freshRecords natives false 0 ((sortByLoadOrder m).map Prod.fst)),
         ((sortByLoadOrder m).map Prod.fst).length) := by
    unfold initFromKeyList
    rw [hid2]
    exact foldl_initStep_existing_original natives _ _ _ hplnd
      (by rw [freshRecords_map_fst]; exact hnamesnd) hpresent2
  have hfinal : pass2Update natives
      (toPluginListOriginal m natives ((sortByLoadOrder m).map Prod.fst))
      (freshRecords natives false 0 ((sortByLoadOrder m).map Prod.fst))
      = denseRankFrom 0 (sortByLoadOrder m) := by
    apply pass2Update_freshRecords
    intro p hp
    have hpm : p ∈ m := hperm.mem_iff.mp hp
    have hlook : lookupP m p.1 = some p.2 := lookupP_of_mem_nodup m p hnodup hpm
    have hlower : toLower p.1 = p.1 := (hwf p hpm).2
    constructor
    · rw [hfilter, List.mem_filter]
      constructor
      · rintro ⟨hmem, hpred⟩
        simp only [hlower, hlook] at hpred
        exact hpred
      · intro hen
        refine ⟨List.mem_map_of_mem Prod.fst hp, ?_⟩
        simp only [hlower, hlook]
        exact hen
    · intro hen hknat
      have htrue := hnat p hpm hknat
      rw [htrue] at hen
      cases hen
  show deserializeFiles PluginFormat.original natives
      (doSerialize PluginFormat.original natives none m).1
      (doSerialize PluginFormat.original natives none m).2 = denseRank m
  have hdo1 : (doSerialize PluginFormat.original natives none m).1
      = header ++ crlf ++ joinCRLF ((sortByLoadOrder m).map Prod.fst) := rfl
  have hdo2 : (doSerialize PluginFormat.original natives none m).2
      = header ++ crlf
        ++ joinCRLF (toPluginListOriginal m natives ((sortByLoadOrder m).map Prod.fst)) := rfl
  rw [hdo1, hdo2]
  show deserializePure PluginFormat.original natives
      (filterFileData (header ++ crlf ++ joinCRLF ((sortByLoadOrder m).map Prod.fst)))
      (filterFileData (header ++ crlf
        ++ joinCRLF (toPluginListOriginal m natives ((sortByLoadOrder m).map Prod.fst))))
      = denseRank m
  rw [hparse1, hparse2]
  show (initFromKeyList PluginFormat.original natives
      (initFromKeyList PluginFormat.original natives []
        ((sortByLoadOrder m).map Prod.fst) false 0).1
      (toPluginListOriginal m natives ((sortByLoadOrder m).map Prod.fst)) true
      (initFromKeyList PluginFormat.original natives []
        ((sortByLoadOrder m).map Prod.fst) false 0).2).1
      = denseRank m
  rw [hpass1]
  show (initFromKeyList PluginFormat.original natives
      (freshRecords natives false 0 ((sortByLoadOrder m).map Prod.fst))
      (toPluginListOriginal m natives ((sortByLoadOrder m).map Prod.fst)) true
      ((sortByLoadOrder m).map Prod.fst).length).1
      = denseRank m
  rw [hpass2]
  show pass2Update natives
      (toPluginListOriginal m natives ((sortByLoadOrder m).map Prod.fst))
      (freshRecords natives false 0 ((sortByLoadOrder m).map Prod.fst))
      = denseRank m
  rw [hfinal]
  rfl

theorem char_toLower_star : Char.toLower '*' = '*' := by decide

theorem roundTrip_fallout4_eq (natives : List Str) (m : PluginMap)
    (hnodup : (m.map Prod.fst).Nodup)
    (hwf : ∀ p ∈ m, wellFormedName p.1 ∧ toLower p.1 = p.1 ∧ p.1.head? ≠ some '*') :
    roundTrip PluginFormat.fallout4 natives m
      = denseRankFrom 0
          ((sortByLoadOrder m).filter (fun p => !(decide (p.1 ∈ natives)))) := by
  have hperm : List.Perm (sortByLoadOrder m) m := List.perm_insertionSort loLE m
  have hnamesnd : ((sortByLoadOrder m).map Prod.fst).Nodup :=
    ((hperm.map Prod.fst).nodup_iff).mpr hnodup
  have hmem : ∀ p ∈ (sortByLoadOrder m).filter (fun p => !(decide (p.1 ∈ natives))), p ∈ m :=
    fun p hp => hperm.mem_iff.mp (List.mem_of_mem_filter hp)
  have hfnd : (((sortByLoadOrder m).filter
      (fun p => !(decide (p.1 ∈ natives)))).map Prod.fst).Nodup :=
    hnamesnd.sublist ((List.filter_sublist _).map Prod.fst)
  -- the plugins.txt lines are the filtered entries rendered by markStar
  have hlines : toPluginListFallout4 m natives ((sortByLoadOrder m).map Prod.fst)
      = ((sortByLoadOrder m).filter (fun p => !(decide (p.1 ∈ natives)))).map markStar := by
    unfold toPluginListFallout4
    have hfc : ((sortByLoadOrder m).map Prod.fst).filter
          (fun name => !(decide (toLower name ∈ natives)))
        = ((sortByLoadOrder m).filter (fun p => !(decide (p.1 ∈ natives)))).map Prod.fst := by
      rw [List.filter_map]
      congr 1
      refine List.filter_congr (fun p hp => ?_)
      have hlow : toLower p.1 = p.1 := (hwf p (hperm.mem_iff.mp hp)).2.1
      simp [Function.comp, hlow]
    rw [hfc, List.map_map]
    refine List.map_congr_left (fun p hp => ?_)
    have hpm : p ∈ m := hmem p hp
    have hlow : toLower p.1 = p.1 := (hwf p hpm).2.1
    have hlook : lookupP m p.1 = some p.2 := lookupP_of_mem_nodup m p hnodup hpm
    simp only [Function.comp_apply, hlow, hlook, markStar]
  have hlinewf : ∀ l ∈ ((sortByLoadOrder m).filter
        (fun p => !(decide (p.1 ∈ natives)))).map markStar,
      wellFormedName l ∧ toLower l = l := by
    intro l hl
    obtain ⟨p, hp, hpl⟩ := List.mem_map.mp hl
    obtain ⟨⟨hne, hhd, hcl⟩, hlow, _⟩ := hwf p (hmem p hp)
    subst hpl
    unfold markStar
    cases he : p.2.enabled with
    | true =>
      rw [if_pos rfl]
      refine ⟨⟨by simp, by simp, ?_⟩, ?_⟩
      · intro c hc
        rcases List.mem_cons.mp hc with hc | hc
        · subst hc
          constructor <;> decide
        · exact hcl c hc
      · show toLower ('*' :: p.1) = '*' :: p.1
        unfold toLower
        rw [List.map_cons, char_toLower_star]
        rw [show p.1.map Char.toLower = toLower p.1 from rfl, hlow]
    | false =>
      rw [if_neg (by simp)]
      exact ⟨⟨hne, hhd, hcl⟩, hlow⟩
  have hlinesnd : (((sortByLoadOrder m).filter
      (fun p => !(decide (p.1 ∈ natives)))).map markStar).Nodup := by
    refine List.Nodup.map_on ?_ (hfnd.of_map Prod.fst)
    intro p hp q hq hpq
    have hinj := List.inj_on_of_nodup_map hfnd
    have hph := (hwf p (hmem p hp)).2.2
    have hqh := (hwf q (hmem q hq)).2.2
    unfold markStar at hpq
    cases hpe : p.2.enabled <;> cases hqe : q.2.enabled <;>
      rw [hpe] at hpq <;> rw [hqe] at hpq <;> simp at hpq
    · exact hinj hp hq hpq
    · exact absurd (show List.head? p.1 = some '*' by rw [hpq]; rfl) hph
    · exact absurd (show List.head? q.1 = some '*' by rw [← hpq]; rfl) hqh
    · exact hinj hp hq hpq
  have hparse : filterFileData (header ++ crlf
        ++ joinCRLF (((sortByLoadOrder m).filter
          (fun p => !(decide (p.1 ∈ natives)))).map markStar))
      = ((sortByLoadOrder m).filter (fun p => !(decide (p.1 ∈ natives)))).map markStar :=
    filterFileData_serialized _ (fun n hn => (hlinewf n hn).1)
  have hid : dedupFirst ((((sortByLoadOrder m).filter
        (fun p => !(decide (p.1 ∈ natives)))).map markStar).map toLower)
      = ((sortByLoadOrder m).filter (fun p => !(decide (p.1 ∈ natives)))).map markStar := by
    rw [List.map_congr_left (fun n hn => (hlinewf n hn).2), List.map_id']
    exact dedupFirst_of_nodup _ hlinesnd
  have hfold : initFromKeyList PluginFormat.fallout4 natives []
      (((sortByLoadOrder m).filter (fun p => !(decide (p.1 ∈ natives)))).map markStar) true 0
      = (denseRankFrom 0 ((sortByLoadOrder m).filter (fun p => !(decide (p.1 ∈ natives)))),
         ((sortByLoadOrder m).filter (fun p => !(decide (p.1 ∈ natives)))).length) := by
    unfold initFromKeyList
    rw [hid]
    rw [foldl_initStep_fresh_fallout4 natives _ [] 0 hfnd ?_]
    · simp
    · intro p hp
      refine ⟨?_, (hwf p (hmem p hp)).2.2, rfl⟩
      have := List.of_mem_filter hp
      simpa using this
  show deserializeFiles PluginFormat.fallout4 natives
      (doSerialize PluginFormat.fallout4 natives none m).1
      (doSerialize PluginFormat.fallout4 natives none m).2
      = denseRankFrom 0 ((sortByLoadOrder m).filter (fun p => !(decide (p.1 ∈ natives))))
  have hdo2 : (doSerialize PluginFormat.fallout4 natives none m).2
      = header ++ crlf
        ++ joinCRLF (toPluginListFallout4 m natives ((sortByLoadOrder m).map Prod.fst)) := rfl
  rw [hdo2, hlines]
  show (initFromKeyList PluginFormat.fallout4 natives []
      (filterFileData (header ++ crlf
        ++ joinCRLF (((sortByLoadOrder m).filter
          (fun p => !(decide (p.1 ∈ natives)))).map markStar))) true 0).1
      = denseRankFrom 0 ((sortByLoadOrder m).filter (fun p => !(decide (p.1 ∈ natives))))
  rw [hparse, hfold]

theorem mem_upsert (m : PluginMap) (k : Str) (v : ILoadOrder) (q : Str × ILoadOrder)
    (h : q ∈ upsert m k v) : q ∈ m ∨ q = (k, v) := by
  induction m with
  | nil => exact Or.inr (by simpa using h)
  | cons p m ih =>
    obtain ⟨a, w⟩ := p
    by_cases hk : a = k
    · rw [upsert_cons, if_pos hk] at h
      rcases List.mem_cons.mp h with he | hm
      · exact Or.inr (hk ▸ he)
      · exact Or.inl (List.mem_cons_of_mem _ hm)
    · rw [upsert_cons, if_neg hk] at h
      rcases List.mem_cons.mp h with he | hm
      · exact Or.inl (he ▸ List.mem_cons_self _ _)
      · rcases ih hm with hm' | hm'
        · exact Or.inl (List.mem_cons_of_mem _ hm')
        · exact Or.inr hm'

theorem lookupP_mem (m : PluginMap) (k : Str) (r : ILoadOrder)
    (h : lookupP m k = some r) : (k, r) ∈ m := by
  induction m with
  | nil => simp at h
  | cons p m ih =>
    obtain ⟨a, w⟩ := p
    by_cases hk : a = k
    · rw [lookupP_cons, if_pos hk] at h
      exact (show (k, r) = (a, w) by rw [hk, Option.some.inj h]) ▸ List.mem_cons_self _ _
    · rw [lookupP_cons, if_neg hk] at h
      exact List.mem_cons_of_mem _ (ih h)

theorem initStep_original_shape (natives : List Str) (en : Bool) (m : PluginMap)
    (pos : ℕ) (key : Str) :
    ∃ lo pos', initStep PluginFormat.original natives en (m, pos) key
      = (upsert m key ⟨en || decide (key ∈ natives), lo⟩, pos') := by
  by_cases h : ((lookupP m key).getD ⟨false, -1⟩).loadOrder = -1
  · refine ⟨(pos : Int), pos + 1, ?_⟩
    unfold initStep
    simp [h]
  · refine ⟨((lookupP m key).getD ⟨false, -1⟩).loadOrder, pos, ?_⟩
    unfold initStep
    simp [h]

/-- A native plugin that already has an enabled record keeps one across any
further `initFromKeyList` step in the original format. -/
theorem foldl_initStep_original_native_preserved (natives : List Str) (en : Bool)
    (keys : List Str) (k : Str) (hk : k ∈ natives) :
    ∀ (m : PluginMap) (pos : ℕ),
      (∃ r, lookupP m k = some r ∧ r.enabled = true) →
      ∃ r, lookupP (keys.foldl (initStep PluginFormat.original natives en) (m, pos)).1 k
        = some r ∧ r.enabled = true := by
  induction keys with
  | nil => exact fun m pos h => h
  | cons key keys ih =>
    intro m pos h
    rw [List.foldl_cons]
    obtain ⟨lo, pos', hstep⟩ := initStep_original_shape natives en m pos key
    rw [hstep]
    apply ih
    by_cases hke : key = k
    · subst hke
      refine ⟨⟨en || decide (key ∈ natives), lo⟩, lookupP_upsert m key _, ?_⟩
      simp [decide_eq_true hk]
    · rw [lookupP_upsert_ne m key k _ hke]
      exact h

/-- Processing a native key in the original format leaves it with an enabled
record. -/
theorem foldl_initStep_original_native_mem (natives : List Str) (en : Bool)
    (keys : List Str) (k : Str) (hk : k ∈ natives) :
    ∀ (m : PluginMap) (pos : ℕ), k ∈ keys →
      ∃ r, lookupP (keys.foldl (initStep PluginFormat.original natives en) (m, pos)).1 k
        = some r ∧ r.enabled = true := by
  induction keys with
  | nil => intro m pos h; simp at h
  | cons key keys ih =>
    intro m pos hmem
    rw [List.foldl_cons]
    obtain ⟨lo, pos', hstep⟩ := initStep_original_shape natives en m pos key
    rw [hstep]
    by_cases hke : key = k
    · subst hke
      apply foldl_initStep_original_native_preserved natives en keys key hk
      refine ⟨⟨en || decide (key ∈ natives), lo⟩, lookupP_upsert m key _, ?_⟩
      simp [decide_eq_true hk]
    · exact ih _ _ ((List.mem_cons.mp hmem).resolve_left (fun he => hke he.symm))

/-- In the fallout4 format `initFromKeyList` never creates an entry for a
native plugin: native keys are skipped and never inserted. -/
theorem initStep_fallout4_no_native (natives : List Str) (en : Bool)
    (m : PluginMap) (pos : ℕ) (key0 : Str)
    (hinv : ∀ p ∈ m, p.1 ∉ natives) :
    ∀ p ∈ (initStep PluginFormat.fallout4 natives en (m, pos) key0).1, p.1 ∉ natives := by
  intro p hp
  unfold initStep at hp
  by_cases hskip : PluginFormat.fallout4 = PluginFormat.fallout4
      ∧ (if PluginFormat.fallout4 = PluginFormat.fallout4 ∧ key0.head? = some '*'
          then key0.tail else key0) ∈ natives
  · rw [if_pos hskip] at hp
    exact hinv p hp
  · rw [if_neg hskip] at hp
    have hkey : (if PluginFormat.fallout4 = PluginFormat.fallout4 ∧ key0.head? = some '*'
        then key0.tail else key0) ∉ natives := fun hc => hskip ⟨rfl, hc⟩
    by_cases hlo : (((lookupP (m, pos).1
        (if PluginFormat.fallout4 = PluginFormat.fallout4 ∧ key0.head? = some '*'
          then key0.tail else key0)).getD ⟨false, -1⟩)).loadOrder = -1
    · rw [if_pos hlo] at hp
      rcases mem_upsert _ _ _ p hp with hm | he
      · exact hinv p hm
      · rw [he]
        exact hkey
    · rw [if_neg hlo] at hp
      rcases mem_upsert _ _ _ p hp with hm | he
      · exact hinv p hm
      · rw [he]
        exact hkey

theorem foldl_initStep_fallout4_no_native (natives : List Str) (en : Bool)
    (keys : List Str) :
    ∀ (m : PluginMap) (pos : ℕ), (∀ p ∈ m, p.1 ∉ natives) →
      ∀ p ∈ (keys.foldl (initStep PluginFormat.fallout4 natives en) (m, pos)).1,
        p.1 ∉ natives := by
  induction keys with
  | nil => exact fun m pos h => h
  | cons key keys ih =>
    intro m pos hinv
    rw [List.foldl_cons]
    have hstep := initStep_fallout4_no_native natives en m pos key hinv
    have : initStep PluginFormat.fallout4 natives en (m, pos) key
        = ((initStep PluginFormat.fallout4 natives en (m, pos) key).1,
           (initStep PluginFormat.fallout4 natives en (m, pos) key).2) := rfl
    rw [this]
    exact ih _ _ hstep

/-- In the deserialized map of an original-format game, every native plugin
whose (lowercased) name occurs in `loadorder.txt` or `plugins.txt` has an
enabled record. -/
theorem deserializePure_original_native (natives loKeys plKeys : List Str) (k : Str)
    (hk : k ∈ natives) (hmem : k ∈ (loKeys ++ plKeys).map toLower) :
    ∃ r, lookupP (deserializePure PluginFormat.original natives loKeys plKeys) k = some r
      ∧ r.enabled = true := by
  unfold deserializePure initFromKeyList
  rw [List.map_append] at hmem
  rcases List.mem_append.mp hmem with hlo | hpl
  · have hlo' : k ∈ dedupFirst (loKeys.map toLower) := (mem_dedupFirst _ k).mpr hlo
    have h1 := foldl_initStep_original_native_mem natives false
      (dedupFirst (loKeys.map toLower)) k hk [] 0 hlo'
    exact foldl_initStep_original_native_preserved natives true
      (dedupFirst (plKeys.map toLower)) k hk _ _ h1
  · have hpl' : k ∈ dedupFirst (plKeys.map toLower) := (mem_dedupFirst _ k).mpr hpl
    exact foldl_initStep_original_native_mem natives true
      (dedupFirst (plKeys.map toLower)) k hk _ _ hpl'

/-- In the deserialized map of a fallout4-format game no native plugin ever
has a record. -/
theorem deserializePure_fallout4_native (natives loKeys plKeys : List Str) (k : Str)
    (hk : k ∈ natives) :
    lookupP (deserializePure PluginFormat.fallout4 natives loKeys plKeys) k = none := by
  unfold deserializePure initFromKeyList
  have hinv := foldl_initStep_fallout4_no_native natives true
    (dedupFirst (plKeys.map toLower)) [] 0 (by simp)
  cases hl : lookupP ((dedupFirst (plKeys.map toLower)).foldl
      (initStep PluginFormat.fallout4 natives true) ([], 0)).1 k with
  | none => rfl
  | some r => exact absurd hk (hinv (k, r) (lookupP_mem _ k r hl))

theorem dedupFirst_nodup (ks : List Str) : (dedupFirst ks).Nodup := by
  induction ks with
  | nil => exact List.nodup_nil
  | cons k ks ih =>
    unfold dedupFirst
    rw [List.nodup_cons]
    constructor
    · intro hmem
      have hne := (List.mem_filter.mp hmem).2
      simp at hne
    · exact ih.filter _

theorem lookupP_freshRecords_get (natives : List Str) (en : Bool) (names : List Str)
    (hnd : names.Nodup) :
    ∀ (pos i : ℕ) (h : i < names.length),
      lookupP (freshRecords natives en pos names) (names.get ⟨i, h⟩)
        = some ⟨en || decide (names.get ⟨i, h⟩ ∈ natives), ((pos + i : ℕ) : Int)⟩ := by
  induction names with
  | nil => intro pos i h; simp at h
  | cons a names ih =>
    rw [List.nodup_cons] at hnd
    intro pos i h
    cases i with
    | zero =>
      have hget : (a :: names).get ⟨0, h⟩ = a := rfl
      rw [hget]
      unfold freshRecords
      rw [lookupP_cons, if_pos rfl]
      simp
    | succ j =>
      have hj : j < names.length := Nat.lt_of_succ_lt_succ h
      have hget : (a :: names).get ⟨j + 1, h⟩ = names.get ⟨j, hj⟩ := rfl
      rw [hget]
      unfold freshRecords
      rw [lookupP_cons, if_neg (fun he => hnd.1 (by
        rw [he]
        exact List.get_mem names j hj))]
      rw [ih hnd.2 (pos + 1) j hj]
      have harith : pos + 1 + j = pos + (j + 1) := by omega
      rw [harith]

/-- A record with an assigned slot keeps that slot across any further
`initFromKeyList` step in the original format (the `-1` branch cannot fire
and `upsert` preserves `cur.loadOrder`). -/
theorem initStep_original_preserves (natives : List Str) (en : Bool) (m : PluginMap)
    (pos : ℕ) (key k : Str) (r : ILoadOrder) (hk : lookupP m k = some r)
    (hlo : r.loadOrder ≠ -1) :
    ∃ r', lookupP (initStep PluginFormat.original natives en (m, pos) key).1 k = some r'
      ∧ r'.loadOrder = r.loadOrder := by
  by_cases hke : key = k
  · subst hke
    rw [initStep_existing_original natives en m pos key r hk hlo]
    exact ⟨⟨en || decide (key ∈ natives), r.loadOrder⟩, lookupP_upsert m key _, rfl⟩
  · obtain ⟨lo, pos', hstep⟩ := initStep_original_shape natives en m pos key
    rw [hstep]
    exact ⟨r, by rw [lookupP_upsert_ne m key k _ hke]; exact hk, rfl⟩

theorem foldl_initStep_original_loadOrder (natives : List Str) (en : Bool)
    (keys : List Str) :
    ∀ (m : PluginMap) (pos : ℕ) (k : Str) (r : ILoadOrder),
      lookupP m k = some r → r.loadOrder ≠ -1 →
      ∃ r', lookupP ((keys.foldl (initStep PluginFormat.original natives en) (m, pos)).1) k
          = some r' ∧ r'.loadOrder = r.loadOrder := by
  induction keys with
  | nil => exact fun m pos k r hk _ => ⟨r, hk, rfl⟩
  | cons key keys ih =>
    intro m pos k r hk hlo
    rw [List.foldl_cons]
    obtain ⟨r1, hr1, hr1lo⟩ := initStep_original_preserves natives en m pos key k r hk hlo
    have hpair : initStep PluginFormat.original natives en (m, pos) key
        = ((initStep PluginFormat.original natives en (m, pos) key).1,
           (initStep PluginFormat.original natives en (m, pos) key).2) := rfl
    rw [hpair]
    obtain ⟨r', hr', hlo'⟩ := ih _ _ _ _ hr1 (by rw [hr1lo]; exact hlo)
    exact ⟨r', hr', by rw [hlo', hr1lo]⟩

/-- Every key of a map built by `initFromKeyList` steps in the original
format either was present before or is one of the processed keys: the fold
never invents entries for unlisted names. -/
theorem foldl_initStep_original_keys (natives : List Str) (en : Bool) (keys : List Str) :
    ∀ (m : PluginMap) (pos : ℕ) (k : Str) (r : ILoadOrder),
      lookupP ((keys.foldl (initStep PluginFormat.original natives en) (m, pos)).1) k
        = some r →
      (lookupP m k).isSome = true ∨ k ∈ keys := by
  induction keys with
  | nil =>
    intro m pos k r h
    left
    have h' : lookupP m k = some r := h
    simp [h']
  | cons key keys ih =>
    intro m pos k r h
    rw [List.foldl_cons] at h
    obtain ⟨lo, pos', hstep⟩ := initStep_original_shape natives en m pos key
    rw [hstep] at h
    rcases ih _ _ _ _ h with hm | hk
    · by_cases hke : key = k
      · exact Or.inr (by simp [hke])
      · left
        rw [lookupP_upsert_ne m key k _ hke] at hm
        exact hm
    · exact Or.inr (List.mem_cons_of_mem _ hk)

/-- In the deserialized map of an original-format game every key comes from
one of the two files: unlisted plugins (native or not) never get a record. -/
theorem deserializePure_original_key_provenance (natives : List Str)
    (loKeys plKeys : List Str) (k : Str) (r : ILoadOrder)
    (h : lookupP (deserializePure PluginFormat.original natives loKeys plKeys) k = some r) :
    k ∈ (loKeys ++ plKeys).map toLower := by
  simp only [deserializePure, initFromKeyList] at h
  rcases foldl_initStep_original_keys natives true _ _ _ _ _ h with h1 | h1
  · rw [Option.isSome_iff_exists] at h1
    obtain ⟨r0, hr0⟩ := h1
    rcases foldl_initStep_original_keys natives false _ _ _ _ _ hr0 with h2 | h2
    · simp [lookupP] at h2
    · rw [List.map_append]
      exact List.mem_append.mpr (Or.inl ((mem_dedupFirst _ _).mp h2))
  · rw [List.map_append]
    exact List.mem_append.mpr (Or.inr ((mem_dedupFirst _ _).mp h1))

/-- Order slots in the original format follow file position: the i-th
distinct lowercased `loadorder.txt` line holds slot i after both passes
(`plugins.txt` entries can only reuse or extend, never move, those slots). -/
theorem deserializePure_original_slots (natives : List Str) (loKeys plKeys : List Str)
    (i : ℕ) (h : i < (dedupFirst (loKeys.map toLower)).length) :
    ∃ r, lookupP (deserializePure PluginFormat.original natives loKeys plKeys)
        ((dedupFirst (loKeys.map toLower)).get ⟨i, h⟩) = some r
      ∧ r.loadOrder = (i : Int) := by
  have hnd := dedupFirst_nodup (loKeys.map toLower)
  have hpass1 : initFromKeyList PluginFormat.original natives [] loKeys false 0
      = (freshRecords natives false 0 (dedupFirst (loKeys.map toLower)),
         (dedupFirst (loKeys.map toLower)).length) := by
    unfold initFromKeyList
    rw [foldl_initStep_fresh_original natives false _ [] 0 hnd (fun k _ => rfl)]
    simp
  have hlook1 : lookupP (freshRecords natives false 0 (dedupFirst (loKeys.map toLower)))
      ((dedupFirst (loKeys.map toLower)).get ⟨i, h⟩)
      = some ⟨false || decide ((dedupFirst (loKeys.map toLower)).get ⟨i, h⟩ ∈ natives),
          ((0 + i : ℕ) : Int)⟩ :=
    lookupP_freshRecords_get natives false _ hnd 0 i h
  show ∃ r, lookupP ((initFromKeyList PluginFormat.original natives
      (initFromKeyList PluginFormat.original natives [] loKeys false 0).1 plKeys true
      (initFromKeyList PluginFormat.original natives [] loKeys false 0).2).1)
      ((dedupFirst (loKeys.map toLower)).get ⟨i, h⟩) = some r ∧ r.loadOrder = (i : Int)
  rw [hpass1]
  show ∃ r, lookupP ((initFromKeyList PluginFormat.original natives
      (freshRecords natives false 0 (dedupFirst (loKeys.map toLower))) plKeys true
      (dedupFirst (loKeys.map toLower)).length).1)
      ((dedupFirst (loKeys.map toLower)).get ⟨i, h⟩) = some r ∧ r.loadOrder = (i : Int)
  unfold initFromKeyList
  obtain ⟨r', hr', hlo'⟩ := foldl_initStep_original_loadOrder natives true
    (dedupFirst (plKeys.map toLower)) _ _ _ _ hlook1
    (by
      have hge := Int.natCast_nonneg (0 + i)
      simp only []
      omega)
  refine ⟨r', hr', ?_⟩
  rw [hlo']
  simp

/-- The `setPluginEnabled` reducer (`reducers/loadOrder.ts`): an existing
record has only its `enabled` field replaced; an unknown plugin gets a fresh
record with `enabled = true` and the `-1` sentinel rank, whatever the
requested flag was. -/
def setPluginEnabledR (state : PluginMap) (pluginName : Str) (enabled : Bool) : PluginMap :=
  match lookupP state pluginName with
  | some r => upsert state pluginName ⟨enabled, r.loadOrder⟩
  | none => state ++ [(pluginName, ⟨true, -1⟩)]

/-- The second loop of the `updatePluginOrder` reducer: walk the object keys
in order, leave the listed plugins alone, and give every other record the
next rank after the list (disabling it when `setEnabled` is on). -/
def appendRest (setEnabled : Bool) (pluginList : List Str) : PluginMap → ℕ → PluginMap
  | [], _ => []
  | (k, r) :: rest, idx =>
    if k ∈ pluginList then (k, r) :: appendRest setEnabled pluginList rest idx
    else (k, ⟨if setEnabled then false else r.enabled, (idx : Int)⟩)
      :: appendRest setEnabled pluginList rest (idx + 1)

/-- The enabled flag the first loop of `updatePluginOrder` computes for a
listed plugin: forced on when `setEnabled`, otherwise taken from the prior
state with the reducer's `true` default. -/
def listedEnabled (state : PluginMap) (setEnabled : Bool) (name : Str) : Bool :=
  if setEnabled then true else ((lookupP state name).map ILoadOrder.enabled).getD true

/-- The `updatePluginOrder` reducer: first place the listed plugins at their
list indices (`result[pluginName] = {...}` in list order), then append all
remaining records after the list. -/
def updatePluginOrderR (state : PluginMap) (pluginList : List Str)
    (setEnabled : Bool) : PluginMap :=
  let listed := (List.enumFrom 0 pluginList).foldl
    (fun acc p => upsert acc p.2 ⟨listedEnabled state setEnabled p.2, (p.1 : Int)⟩)
    state
  appendRest setEnabled pluginList listed pluginList.length

theorem foldl_listed_not_mem (state : PluginMap) (setEnabled : Bool)
    (pl : List Str) (base : ℕ) (acc : PluginMap) (n : Str) (hn : n ∉ pl) :
    lookupP ((List.enumFrom base pl).foldl
      (fun acc p => upsert acc p.2 ⟨listedEnabled state setEnabled p.2, (p.1 : Int)⟩) acc) n
      = lookupP acc n := by
  induction pl generalizing base acc with
  | nil => rfl
  | cons a pl ih =>
    simp only [List.mem_cons, not_or] at hn
    rw [List.enumFrom_cons, List.foldl_cons, ih (base + 1) _ hn.2]
    exact lookupP_upsert_ne acc a n _ (fun he => hn.1 he.symm)

theorem foldl_listed_lookup (state : PluginMap) (setEnabled : Bool)
    (pl : List Str) (hnd : pl.Nodup) :
    ∀ (base : ℕ) (acc : PluginMap) (i : ℕ) (h : i < pl.length),
      lookupP ((List.enumFrom base pl).foldl
        (fun acc p => upsert acc p.2 ⟨listedEnabled state setEnabled p.2, (p.1 : Int)⟩) acc)
        (pl.get ⟨i, h⟩)
      = some ⟨listedEnabled state setEnabled (pl.get ⟨i, h⟩), ((base + i : ℕ) : Int)⟩ := by
  induction pl with
  | nil => intro base acc i h; simp at h
  | cons a pl ih =>
    rw [List.nodup_cons] at hnd
    intro base acc i h
    rw [List.enumFrom_cons, List.foldl_cons]
    cases i with
    | zero =>
      have hget : (a :: pl).get ⟨0, h⟩ = a := rfl
      rw [hget, foldl_listed_not_mem state setEnabled pl (base + 1) _ a hnd.1]
      simp [lookupP_upsert]
    | succ j =>
      have hj : j < pl.length := Nat.lt_of_succ_lt_succ h
      have := ih hnd.2 (base + 1) (upsert acc a ⟨listedEnabled state setEnabled a, (base : Int)⟩) j hj
      rw [show (a :: pl).get ⟨j + 1, h⟩ = pl.get ⟨j, hj⟩ from rfl]
      rw [this]
      congr 2
      omega

theorem appendRest_lookup (setEnabled : Bool) (pluginList : List Str)
    (mp : PluginMap) (idx : ℕ) (k : Str) (r : ILoadOrder)
    (hk : lookupP mp k = some r) (hnl : k ∉ pluginList) :
    ∃ j : ℕ, idx ≤ j ∧ lookupP (appendRest setEnabled pluginList mp idx) k
      = some ⟨if setEnabled then false else r.enabled, (j : Int)⟩ := by
  induction mp generalizing idx with
  | nil => simp at hk
  | cons p rest ih =>
    obtain ⟨a, w⟩ := p
    by_cases ha : a = k
    · subst ha
      rw [lookupP_cons, if_pos rfl] at hk
      have hw : w = r := Option.some.inj hk
      subst hw
      rw [appendRest, if_neg hnl]
      exact ⟨idx, le_refl idx, by simp⟩
    · rw [lookupP_cons, if_neg ha] at hk
      rw [appendRest]
      by_cases hmem : a ∈ pluginList
      · rw [if_pos hmem]
        obtain ⟨j, hj, hl⟩ := ih idx hk
        exact ⟨j, hj, by rw [lookupP_cons, if_neg ha]; exact hl⟩
      · rw [if_neg hmem]
        obtain ⟨j, hj, hl⟩ := ih (idx + 1) hk
        exact ⟨j, by omega, by rw [lookupP_cons, if_neg ha]; exact hl⟩

theorem appendRest_lookup_listed (setEnabled : Bool) (pluginList : List Str)
    (mp : PluginMap) (idx : ℕ) (k : Str) (hk : k ∈ pluginList) :
    lookupP (appendRest setEnabled pluginList mp idx) k = lookupP mp k := by
  induction mp generalizing idx with
  | nil => rfl
  | cons p rest ih =>
    obtain ⟨a, w⟩ := p
    by_cases hmem : a ∈ pluginList
    · rw [appendRest, if_pos hmem, lookupP_cons, lookupP_cons]
      by_cases ha : a = k
      · simp [ha]
      · rw [if_neg ha, if_neg ha]
        exact ih idx
    · rw [appendRest, if_neg hmem, lookupP_cons, lookupP_cons]
      have ha : a ≠ k := fun he => hmem (he ▸ hk)
      rw [if_neg ha, if_neg ha]
      exact ih (idx + 1)

/-!  Sort orchestrator (`autosort.ts`).  `doSort` pattern-matches on the
message of the error thrown by `loot.sortPluginsAsync`; following the spec's
design note this is embedded as a closed set of typed outcomes. -/

inductive SortOutcome where
  | success (sorted : List Str)
  | cyclicInteraction
  | invalidPlugin (name : Str)
  | unknownGroup (name : Str)
  | closed
  | other
  deriving Repr, DecidableEq

inductive SortReport where
  | cycleDialog
  | notSortedNotif
  | errorNotif
  deriving Repr, DecidableEq

/-- What one `doSort` invocation did: the order committed through
`updatePluginOrder` (if any), the user-facing reports raised, how many
pruning retries happened, and the candidate list of the final sort call. -/
structure SortRun where
  committed : Option (List Str)
  reports : List SortReport
  retries : ℕ
  finalCall : List Str
  deriving Repr, DecidableEq

/-- `doSort` of `autosort.ts`: on success the sorted list is dispatched via
`updatePluginOrder`; a cyclic-interaction error raises the cycle dialog and
nothing else; an invalid-plugin error prunes the named plugin and retries
when the plugin is absent from disk and present in the candidate list
(`splice` at `indexOf` removes the first occurrence, i.e. `List.erase`);
unknown-group errors notify; `already closed` is swallowed; anything else
raises an error notification. -/
def doSortModel (engine : List Str → SortOutcome) (existsOnDisk : Str → Bool)
    (pluginNames : List Str) : SortRun :=
  match engine pluginNames with
  | SortOutcome.success sorted => ⟨some sorted, [], 0, pluginNames⟩
  | SortOutcome.cyclicInteraction => ⟨none, [SortReport.cycleDialog], 0, pluginNames⟩
  | SortOutcome.invalidPlugin name =>
    if existsOnDisk name then ⟨none, [SortReport.notSortedNotif], 0, pluginNames⟩
    else if hmem : name ∈ pluginNames then
      ⟨(doSortModel engine existsOnDisk (pluginNames.erase name)).committed,
       (doSortModel engine existsOnDisk (pluginNames.erase name)).reports,
       (doSortModel engine existsOnDisk (pluginNames.erase name)).retries + 1,
       (doSortModel engine existsOnDisk (pluginNames.erase name)).finalCall⟩
    else ⟨none, [SortReport.notSortedNotif], 0, pluginNames⟩
  | SortOutcome.unknownGroup _ => ⟨none, [SortReport.notSortedNotif], 0, pluginNames⟩
  | SortOutcome.closed => ⟨none, [], 0, pluginNames⟩
  | SortOutcome.other => ⟨none, [SortReport.errorNotif], 0, pluginNames⟩
  termination_by pluginNames.length
  decreasing_by
    all_goals
      rw [List.length_erase_of_mem hmem]
      have hpos : 0 < pluginNames.length := List.length_pos.mpr (by
        intro he
        rw [he] at hmem
        simp at hmem)
      omega

/-- A sort engine whose rule evaluation rejects exactly the plugins in
`bad`: it reports the first bad candidate as invalid, and succeeds (echoing
the candidate order) otherwise. -/
def engineOf (bad : List Str) (names : List Str) : SortOutcome :=
  match names.find? (fun n => decide (n ∈ bad)) with
  | some x => SortOutcome.invalidPlugin x
  | none => SortOutcome.success names

/-!  The file watcher of `PluginPersistor.startWatch`. -/

/-- The two files the watcher reacts to. -/
def watchedFiles : List Str := [("loadorder.txt").toList, ("plugins.txt").toList]

/-- The condition under which the `fs.watch` callback schedules a refresh:
not currently writing ourselves, the event concerns one of the two managed
files, and the file's modification time is strictly newer than the last
write (`undefined` before any write, in which case the JS `>` comparison is
always false). -/
def watchTriggers (serializing : Bool) (lastWriteTime : Option Int)
    (fileName : Str) (mtime : Int) : Bool :=
  !serializing && decide (fileName ∈ watchedFiles)
    && (match lastWriteTime with
        | some t => decide (t < mtime)
        | none => false)

/-!  The retry/report control flow of `deserialize` / `scheduleRefresh` /
`reportError`. -/

/-- The retry budget `retryCount` of `PluginPersistor.ts`. -/
def retryCount : ℕ := 3

/-- Outcome of one attempt at reading the plugin files (for the original
format this covers the sequential read of both files, which share one error
handler). -/
inductive ReadOutcome where
  | ok (loContent plContent : Str)
  | enoent
  | ioerr
  deriving Repr, DecidableEq

/-- Persistor state relevant to `deserialize`: the map, the remaining retry
budget `mRetryCounter`, the `mLoaded` and `mFailed` flags, plus two
instrumentation counters (number of `mOnError` reports actually raised and
number of file read attempts). -/
structure DState where
  plugins : PluginMap
  retryCounter : ℕ
  loaded : Bool
  failed : Bool
  reports : ℕ
  attempts : ℕ
  deriving Repr, DecidableEq

/-- `reportError`: forwards to `mOnError` only while `mFailed` is clear,
then latches `mFailed`. -/
def reportErrorM (st : DState) : DState :=
  if st.failed then st else { st with failed := true, reports := st.reports + 1 }

/-- The `deserialize(retry)` control flow, reading through the oracle
`read` (indexed by attempt number): an empty `plugins.txt` on a first pass
triggers one immediate re-read; a successful parse loads the map, resets
the retry budget and clears `mFailed`; `ENOENT` silently counts as loaded;
any other read error consumes one retry (via `scheduleRefresh`) until the
budget is exhausted, at which point the store gives up, reports once and
proceeds as loaded. -/
def deserializeM (fmt : PluginFormat) (natives : List Str) (read : ℕ → ReadOutcome)
    (retry : Bool) (st : DState) : DState :=
  match read st.attempts with
  | ReadOutcome.ok lo pl =>
    if hpl : pl = [] ∧ retry = false then
      deserializeM fmt natives read true { st with attempts := st.attempts + 1 }
    else
      { st with
        attempts := st.attempts + 1,
        plugins := deserializeFiles fmt natives lo pl,
        loaded := true,
        retryCounter := retryCount,
        failed := false }
  | ReadOutcome.enoent => { st with attempts := st.attempts + 1, loaded := true }
  | ReadOutcome.ioerr =>
    if hrc : 0 < st.retryCounter then
      deserializeM fmt natives read false
        { st with attempts := st.attempts + 1, retryCounter := st.retryCounter - 1 }
    else
      reportErrorM { st with attempts := st.attempts + 1, loaded := true }
  termination_by 2 * st.retryCounter + (if retry then 0 else 1)
  decreasing_by
    · rw [hpl.2]
      simp
    · rcases Bool.eq_false_or_eq_true retry with hr | hr <;> rw [hr] <;> simp <;> omega

/-!  The write-gating of the persistor (`serialize` / `setItem` /
`removeItem` / `disable` / `loadFiles`). -/

/-- Deletion of a record, `util.deleteOrNop`. -/
def removeP (m : PluginMap) (key : Str) : PluginMap :=
  m.filter (fun p => decide (p.1 ≠ key))

/-- Persistor state for the write-gating model: the in-memory map, the
`mLoaded` flag, and the last contents written to disk (`none` while the
files were never written by us). -/
structure PersistorState where
  plugins : PluginMap
  loaded : Bool
  disk : Option (Str × Str)
  deriving Repr, DecidableEq

/-- `serialize`: does nothing while the store has not completed its first
deserialization; otherwise the scheduled `doSerialize` writes the current
map (the debounce only coalesces writes, which the pure model collapses). -/
def serializeS (fmt : PluginFormat) (natives : List Str)
    (st : PersistorState) : PersistorState :=
  if st.loaded then { st with disk := some (doSerialize fmt natives none st.plugins) } else st

/-- The persistor operations reachable from outside between `loadFiles`
calls.  `setItem` always stores the parsed value and schedules a write (the
reducer passes fresh objects, so the JS `!==` guard never suppresses it);
`deserializeOp` is the parse step of `loadFiles` with the given file
contents. -/
inductive POp where
  | setItem (key : Str) (value : ILoadOrder)
  | removeItem (key : Str)
  | disable
  | deserializeOp (lo pl : Str)
  deriving Repr, DecidableEq

def applyOp (fmt : PluginFormat) (natives : List Str)
    (st : PersistorState) : POp → PersistorState
  | POp.setItem key value =>
    serializeS fmt natives { st with plugins := upsert st.plugins key value }
  | POp.removeItem key =>
    serializeS fmt natives { st with plugins := removeP st.plugins key }
  | POp.disable => { st with plugins := [], loaded := false }
  | POp.deserializeOp lo pl =>
    { st with plugins := deserializeFiles fmt natives lo pl, loaded := true }

def applyOps (fmt : PluginFormat) (natives : List Str) :
    List POp → PersistorState → PersistorState
  | [], st => st
  | op :: ops, st => applyOps fmt natives ops (applyOp fmt natives st op)

/-!  The missing-groups consistency check (`testMissingGroups` in the
extension's entry module). -/

structure LootGroup where
  name : Str
  after : List Str
  deriving Repr, DecidableEq

structure LootPlugin where
  name : Str
  group : Option Str
  deriving Repr, DecidableEq

/-- The declared groups: masterlist groups and userlist groups. -/
def knownGroups (masterGroups userGroups : List LootGroup) : List Str :=
  masterGroups.map LootGroup.name ++ userGroups.map LootGroup.name

/-- The `usedGroups` of `testMissingGroups`: only the `after` edges of the
userlist's group entries. -/
def usedGroups (userGroups : List LootGroup) : List Str :=
  (userGroups.map LootGroup.after).flatten

/-- `testMissingGroups`: the used group names that are not declared.  An
empty result means no diagnostic is raised. -/
def testMissingGroups (masterGroups userGroups : List LootGroup) : List Str :=
  (usedGroups userGroups).filter
    (fun g => decide (g ∉ knownGroups masterGroups userGroups))

/-- The diagnostic's `automaticFix`.  It dispatches only userlist actions:
`setGroup(plugin, undefined)` for plugins assigned to a missing group and
`removeGroupRule` for dangling `after` edges; the masterlist is returned
untouched.  Modelled from the spec: the userlist reducer handling these two
actions is not part of the sources, and the spec states the fix "strips the
dangling references from the userlist (masterlist is never auto-edited)". -/
def fixMissingGroups (masterGroups userGroups : List LootGroup)
    (userPlugins : List LootPlugin) :
    List LootGroup × List LootGroup × List LootPlugin :=
  let missing := testMissingGroups masterGroups userGroups
  (masterGroups,
   userGroups.map (fun g => ⟨g.name, g.after.filter (fun a => decide (a ∉ missing))⟩),
   userPlugins.map (fun p =>
     match p.group with
     | some g => if g ∈ missing then ⟨p.name, none⟩ else p
     | none => p))

/-- C9: the `setPluginEnabled` reducer creates, for an unknown plugin, a
record with `enabled = true` and `loadOrder = -1` regardless of the boolean
argument; for an existing record it replaces only the `enabled` field,
leaving `loadOrder` (and every other plugin's record) unchanged. -/
theorem C9_setPluginEnabled_behavior (state : PluginMap) (name : Str) (b : Bool) :
    (lookupP state name = none →
      setPluginEnabledR state name b = state ++ [(name, ⟨true, -1⟩)])
    ∧ (∀ r, lookupP state name = some r →
        lookupP (setPluginEnabledR state name b) name = some ⟨b, r.loadOrder⟩
        ∧ ∀ k, k ≠ name → lookupP (setPluginEnabledR state name b) k = lookupP state k) := by
  constructor
  · intro h
    unfold setPluginEnabledR
    rw [h]
  · intro r h
    unfold setPluginEnabledR
    rw [h]
    exact ⟨lookupP_upsert state name _,
      fun k hk => lookupP_upsert_ne state name k _ (fun he => hk he.symm)⟩

/-- Witness for C9: `setPluginEnabled("a.esp", false)` on a state with no
record for `a.esp` still creates an enabled record with the `-1` sentinel. -/
theorem C9_setPluginEnabled_witness :
    setPluginEnabledR [] (("a.esp").toList) false
      = ([] : PluginMap) ++ [((("a.esp").toList), ⟨true, -1⟩)] :=
  (C9_setPluginEnabled_behavior [] (("a.esp").toList) false).1 rfl

/-- C6: the watch callback schedules a refresh exactly when the store is not
serializing, the event names one of the two managed files, and the file's
modification time is strictly newer than the last write; in particular a
touch with an older or equal timestamp never triggers a reload. -/
theorem C6_watch_filter :
    (∀ (s : Bool) (lw : Option Int) (f : Str) (t : Int),
      watchTriggers s lw f t = true
        ↔ (s = false ∧ f ∈ watchedFiles ∧ ∃ w, lw = some w ∧ w < t))
    ∧ (∀ (w t : Int) (f : Str), t ≤ w → watchTriggers false (some w) f t = false) := by
  constructor
  · intro s lw f t
    cases lw with
    | none => simp [watchTriggers]
    | some w =>
      cases s <;> simp [watchTriggers]
  · intro w t f ht
    unfold watchTriggers
    have : ¬ w < t := not_lt.mpr ht
    simp [this]

/-- Witness for C6: after a write at time 5, an external touch at the same
time 5 does not schedule a reload. -/
theorem C6_watch_witness :
    watchTriggers false (some 5) (("plugins.txt").toList) 5 = false :=
  C6_watch_filter.2 5 5 (("plugins.txt").toList) (le_refl 5)

/-- C10: `serialize` is a no-op while `mLoaded` is false, and any sequence
of `setItem`/`removeItem`/`disable` operations before the first
deserialization leaves the on-disk files untouched (and the store still
unloaded). -/
theorem C10_no_write_before_load (fmt : PluginFormat) (natives : List Str) :
    (∀ st : PersistorState, st.loaded = false → serializeS fmt natives st = st)
    ∧ (∀ (ops : List POp) (st : PersistorState), st.loaded = false →
        (∀ op ∈ ops, ∀ lo pl, op ≠ POp.deserializeOp lo pl) →
        (applyOps fmt natives ops st).disk = st.disk
        ∧ (applyOps fmt natives ops st).loaded = false) := by
  have hser : ∀ st : PersistorState, st.loaded = false → serializeS fmt natives st = st := by
    intro st h
    unfold serializeS
    rw [h]
    simp
  refine ⟨hser, ?_⟩
  intro ops
  induction ops with
  | nil => exact fun st h _ => ⟨rfl, h⟩
  | cons op ops ih =>
    intro st h hops
    have hop : (applyOp fmt natives st op).disk = st.disk
        ∧ (applyOp fmt natives st op).loaded = false := by
      cases op with
      | setItem key value =>
        show (serializeS fmt natives { st with plugins := upsert st.plugins key value }).disk
            = st.disk
          ∧ (serializeS fmt natives { st with plugins := upsert st.plugins key value }).loaded
            = false
        rw [hser { st with plugins := upsert st.plugins key value } h]
        exact ⟨rfl, h⟩
      | removeItem key =>
        show (serializeS fmt natives { st with plugins := removeP st.plugins key }).disk
            = st.disk
          ∧ (serializeS fmt natives { st with plugins := removeP st.plugins key }).loaded
            = false
        rw [hser { st with plugins := removeP st.plugins key } h]
        exact ⟨rfl, h⟩
      | disable => exact ⟨rfl, rfl⟩
      | deserializeOp lo pl => exact absurd rfl (hops _ (List.mem_cons_self _ _) lo pl)
    have hrest := ih (applyOp fmt natives st op) hop.2
      (fun o ho => hops o (List.mem_cons_of_mem _ ho))
    exact ⟨hrest.1.trans hop.1, hrest.2⟩

/-- Witness for C10: a `setItem` on a freshly created (not yet loaded)
persistor writes nothing to disk. -/
theorem C10_no_write_witness :
    (applyOps PluginFormat.original [] [POp.setItem (("a.esp").toList) ⟨true, 0⟩]
      ⟨[], false, none⟩).disk = (⟨[], false, none⟩ : PersistorState).disk :=
  ((C10_no_write_before_load PluginFormat.original []).2 _ _ rfl
    (by
      intro op hop lo pl
      simp only [List.mem_singleton] at hop
      subst hop
      simp)).1

/-- C4: when the sort engine fails with a cyclic-interaction error, `doSort`
raises the cycle dialog, commits no order (`updatePluginOrder` is never
dispatched) and performs no retry. -/
theorem C4_cycle_reported_not_committed (engine : List Str → SortOutcome)
    (existsOnDisk : Str → Bool) (names : List Str)
    (h : engine names = SortOutcome.cyclicInteraction) :
    doSortModel engine existsOnDisk names
      = ⟨none, [SortReport.cycleDialog], 0, names⟩ := by
  unfold doSortModel
  rw [h]

/-- Witness for C4: a concrete always-cyclic engine produces the cycle
dialog and no committed order. -/
theorem C4_cycle_witness :
    doSortModel (fun _ => SortOutcome.cyclicInteraction) (fun _ => true) [("a.esp").toList]
      = ⟨none, [SortReport.cycleDialog], 0, [("a.esp").toList]⟩ :=
  C4_cycle_reported_not_committed (fun _ => SortOutcome.cyclicInteraction)
    (fun _ => true) [("a.esp").toList] rfl

/-- C5: the `updatePluginOrder` reducer gives every listed plugin the rank
equal to its list index (with `enabled` forced on when `setEnabled`), moves
every unlisted pre-existing record to a rank after the whole list (disabled
when `setEnabled`), and with `setEnabled = false` leaves every pre-existing
record's `enabled` field unchanged. -/
theorem C5_updatePluginOrder_behavior (state : PluginMap) (pluginList : List Str)
    (setEnabled : Bool) (hplnd : pluginList.Nodup) (hsnd : (state.map Prod.fst).Nodup) :
    (∀ (i : ℕ) (h : i < pluginList.length),
      lookupP (updatePluginOrderR state pluginList setEnabled) (pluginList.get ⟨i, h⟩)
        = some ⟨listedEnabled state setEnabled (pluginList.get ⟨i, h⟩), (i : Int)⟩)
    ∧ (∀ p ∈ state, p.1 ∉ pluginList →
        ∃ j : ℕ, pluginList.length ≤ j ∧
          lookupP (updatePluginOrderR state pluginList setEnabled) p.1
            = some ⟨if setEnabled then false else p.2.enabled, (j : Int)⟩)
    ∧ (setEnabled = false → ∀ p ∈ state,
        ∃ lo, lookupP (updatePluginOrderR state pluginList setEnabled) p.1
          = some ⟨p.2.enabled, lo⟩) := by
  have hlisted : ∀ (i : ℕ) (h : i < pluginList.length),
      lookupP (updatePluginOrderR state pluginList setEnabled) (pluginList.get ⟨i, h⟩)
        = some ⟨listedEnabled state setEnabled (pluginList.get ⟨i, h⟩), (i : Int)⟩ := by
    intro i h
    unfold updatePluginOrderR
    rw [appendRest_lookup_listed setEnabled pluginList _ _ _ (List.get_mem pluginList i h)]
    have := foldl_listed_lookup state setEnabled pluginList hplnd 0 state i h
    rw [this]
    norm_num
  have hunlisted : ∀ p ∈ state, p.1 ∉ pluginList →
      ∃ j : ℕ, pluginList.length ≤ j ∧
        lookupP (updatePluginOrderR state pluginList setEnabled) p.1
          = some ⟨if setEnabled then false else p.2.enabled, (j : Int)⟩ := by
    intro p hp hnl
    unfold updatePluginOrderR
    have hst : lookupP ((List.enumFrom 0 pluginList).foldl
        (fun acc q => upsert acc q.2 ⟨listedEnabled state setEnabled q.2, (q.1 : Int)⟩) state)
        p.1 = some p.2 := by
      rw [foldl_listed_not_mem state setEnabled pluginList 0 state p.1 hnl]
      exact lookupP_of_mem_nodup state p hsnd hp
    exact appendRest_lookup setEnabled pluginList _ pluginList.length p.1 p.2 hst hnl
  refine ⟨hlisted, hunlisted, ?_⟩
  rintro rfl p hp
  by_cases hmem : p.1 ∈ pluginList
  · obtain ⟨⟨i, h⟩, hget⟩ := List.mem_iff_get.mp hmem
    have := hlisted i h
    rw [hget] at this
    refine ⟨(i : Int), ?_⟩
    rw [this]
    have hle : listedEnabled state false p.1 = p.2.enabled := by
      unfold listedEnabled
      rw [if_neg (by simp), lookupP_of_mem_nodup state p hsnd hp]
      rfl
    rw [hle]
  · obtain ⟨j, _, hj⟩ := hunlisted p hp hmem
    refine ⟨(j : Int), ?_⟩
    rw [hj]
    simp

/-- Witness for C5: in the spec's scenario the sorted list
`[native.esm, a.esp, b.esp]` applied with `setEnabled = true` leaves
`a.esp` enabled at rank 1. -/
theorem C5_updatePluginOrder_witness :
    lookupP (updatePluginOrderR
        [((("native.esm").toList), ⟨true, 0⟩), ((("a.esp").toList), ⟨false, 1⟩),
         ((("b.esp").toList), ⟨false, 2⟩)]
        [("native.esm").toList, ("a.esp").toList, ("b.esp").toList] true)
      (("a.esp").toList)
      = some ⟨true, (1 : Int)⟩ :=
  (C5_updatePluginOrder_behavior
    [((("native.esm").toList), ⟨true, 0⟩), ((("a.esp").toList), ⟨false, 1⟩),
     ((("b.esp").toList), ⟨false, 2⟩)]
    [("native.esm").toList, ("a.esp").toList, ("b.esp").toList] true
    (by decide) (by decide)).1 1 (by decide)

theorem filter_erase_neg (p : Str → Bool) (l : List Str) (x : Str) (hx : p x = false) :
    (l.erase x).filter p = l.filter p := by
  induction l with
  | nil => rfl
  | cons a l ih =>
    by_cases ha : a = x
    · subst ha
      rw [List.erase_cons_head, List.filter_cons, hx]
      simp
    · rw [List.erase_cons_tail (by simpa using ha), List.filter_cons, List.filter_cons, ih]

theorem filter_erase_pos (p : Str → Bool) (l : List Str) (x : Str)
    (hx : p x = true) (hmem : x ∈ l) :
    ((l.erase x).filter p).length + 1 = (l.filter p).length := by
  induction l with
  | nil => simp at hmem
  | cons a l ih =>
    by_cases ha : a = x
    · subst ha
      rw [List.erase_cons_head]
      simp [List.filter_cons, hx]
    · have hm : x ∈ l := (List.mem_cons.mp hmem).resolve_left (fun he => ha he.symm)
      rw [List.erase_cons_tail (by simpa using ha)]
      simp only [List.filter_cons]
      cases hpa : p a with
      | true =>
        have hih := ih hm
        simp only [hpa, if_true, List.length_cons]
        omega
      | false =>
        simp only [hpa, Bool.false_eq_true, if_false]
        exact ih hm

theorem length_filter_split (p : Str → Bool) (l : List Str) :
    (l.filter p).length + (l.filter (fun a => !(p a))).length = l.length := by
  induction l with
  | nil => rfl
  | cons a l ih =>
    rw [List.filter_cons, List.filter_cons]
    cases p a <;> simp <;> omega

theorem doSortModel_engineOf (bad : List Str) (existsOnDisk : Str → Bool)
    (hmiss : ∀ x ∈ bad, existsOnDisk x = false) :
    ∀ (N : ℕ) (names : List Str), names.length ≤ N →
      doSortModel (engineOf bad) existsOnDisk names
        = ⟨some (names.filter (fun n => !(decide (n ∈ bad)))),
           [],
           (names.filter (fun n => decide (n ∈ bad))).length,
           names.filter (fun n => !(decide (n ∈ bad)))⟩ := by
  intro N
  induction N with
  | zero =>
    intro names hlen
    have hnil : names = [] := List.length_eq_zero.mp (Nat.le_zero.mp hlen)
    subst hnil
    unfold doSortModel engineOf
    simp
  | succ N ih =>
    intro names hlen
    cases hfind : names.find? (fun n => decide (n ∈ bad)) with
    | none =>
      have hnone : ∀ n ∈ names, n ∉ bad := by
        intro n hn
        have := List.find?_eq_none.mp hfind n hn
        simpa using this
      have hfilter1 : names.filter (fun n => !(decide (n ∈ bad))) = names :=
        List.filter_eq_self.mpr (fun n hn => by simp [hnone n hn])
      have hfilter2 : names.filter (fun n => decide (n ∈ bad)) = [] :=
        List.filter_eq_nil.mpr (fun n hn => by simp [hnone n hn])
      have heng : engineOf bad names = SortOutcome.success names := by
        unfold engineOf
        rw [hfind]
      unfold doSortModel
      simp only [heng]
      rw [hfilter1, hfilter2]
      simp
    | some x =>
      have hxbad : x ∈ bad := by
        have := List.find?_some hfind
        simpa using this
      have hxmem : x ∈ names := List.mem_of_find?_eq_some hfind
      have hxdisk : existsOnDisk x = false := hmiss x hxbad
      have heng : engineOf bad names = SortOutcome.invalidPlugin x := by
        unfold engineOf
        rw [hfind]
      have hlen' : (names.erase x).length ≤ N := by
        rw [List.length_erase_of_mem hxmem]
        have hpos : 0 < names.length := List.length_pos.mpr (by
          intro he
          rw [he] at hxmem
          simp at hxmem)
        omega
      have hrec := ih (names.erase x) hlen'
      have hf1 : (names.erase x).filter (fun n => !(decide (n ∈ bad)))
          = names.filter (fun n => !(decide (n ∈ bad))) :=
        filter_erase_neg _ names x (by simp [hxbad])
      have hf2 : ((names.erase x).filter (fun n => decide (n ∈ bad))).length + 1
          = (names.filter (fun n => decide (n ∈ bad))).length :=
        filter_erase_pos _ names x (by simp [hxbad]) hxmem
      unfold doSortModel
      simp only [heng]
      rw [hxdisk]
      simp only [Bool.false_eq_true, if_false, dif_pos hxmem]
      simp only [hrec]
      rw [hf1]
      simp [hf2]

/-- C3: with a candidate list of which exactly K (occurrences) are rejected
as invalid by the engine and are all missing on disk, the pruning loop of
`doSort` performs exactly K retries, shrinking the candidate list by one
name each time, and the final (successful) sort call receives exactly
N − K names. -/
theorem C3_prune_termination (bad : List Str) (existsOnDisk : Str → Bool)
    (names : List Str) (hmiss : ∀ x ∈ bad, existsOnDisk x = false) :
    (doSortModel (engineOf bad) existsOnDisk names).retries
        = (names.filter (fun n => decide (n ∈ bad))).length
    ∧ (doSortModel (engineOf bad) existsOnDisk names).finalCall
        = names.filter (fun n => !(decide (n ∈ bad)))
    ∧ (doSortModel (engineOf bad) existsOnDisk names).finalCall.length
        = names.length - (names.filter (fun n => decide (n ∈ bad))).length
    ∧ (doSortModel (engineOf bad) existsOnDisk names).reports = []
    ∧ (doSortModel (engineOf bad) existsOnDisk names).committed
        = some (names.filter (fun n => !(decide (n ∈ bad)))) := by
  have h := doSortModel_engineOf bad existsOnDisk hmiss names.length names (le_refl _)
  rw [h]
  have hsplit := length_filter_split (fun n => decide (n ∈ bad)) names
  exact ⟨rfl, rfl, by simp only []; omega, rfl, rfl⟩

/-- Witness for C3: sorting `[a.esp, c.esp]` where `c.esp` is invalid and
missing takes one pruning retry and the final call receives only `a.esp`. -/
theorem C3_prune_witness :
    (doSortModel (engineOf [("c.esp").toList]) (fun _ => false)
      [("a.esp").toList, ("c.esp").toList]).retries = 1
    ∧ (doSortModel (engineOf [("c.esp").toList]) (fun _ => false)
      [("a.esp").toList, ("c.esp").toList]).finalCall = [("a.esp").toList] := by
  have h := C3_prune_termination [("c.esp").toList] (fun _ => false)
    [("a.esp").toList, ("c.esp").toList] (fun x _ => rfl)
  exact ⟨h.1.trans (by decide), h.2.1.trans (by decide)⟩

/-- Counterexample to C8 as stated: a userlist plugin assigned to the
undeclared group `g` is a referenced-but-undeclared group name, yet
`testMissingGroups` (which only scans the userlist groups' `after` edges)
reports nothing. -/
theorem C8_missing_groups_counterexample :
    testMissingGroups [] [] = []
    ∧ ([⟨("a.esp").toList, some (("g").toList)⟩] : List LootPlugin).filterMap
        LootPlugin.group = [("g").toList]
    ∧ ("g").toList ∉ knownGroups [] [] := by
  refine ⟨rfl, rfl, ?_⟩
  decide

/-- C8 amended: the check reports exactly the group names referenced by the
userlist groups' `after` edges that are not declared in masterlist ∪
userlist (plugin `group` assignments are not scanned); the automatic fix
edits only the userlist — it clears dangling plugin group assignments and
dangling `after` edges — after which the check is clean, and the masterlist
is returned untouched. -/
theorem C8_missing_groups_amended (mg ug : List LootGroup) (up : List LootPlugin) :
    (∀ g, g ∈ testMissingGroups mg ug
      ↔ ((∃ grp ∈ ug, g ∈ grp.after) ∧ g ∉ knownGroups mg ug))
    ∧ (fixMissingGroups mg ug up).1 = mg
    ∧ testMissingGroups mg (fixMissingGroups mg ug up).2.1 = []
    ∧ (∀ p ∈ (fixMissingGroups mg ug up).2.2, ∀ g, p.group = some g
        → g ∉ testMissingGroups mg ug) := by
  have hused : ∀ (l : List LootGroup) (g : Str),
      g ∈ usedGroups l ↔ ∃ grp ∈ l, g ∈ grp.after := by
    intro l g
    unfold usedGroups
    rw [List.mem_flatten]
    constructor
    · rintro ⟨al, hl, hg⟩
      obtain ⟨grp, hgrp, hgl⟩ := List.mem_map.mp hl
      exact ⟨grp, hgrp, hgl ▸ hg⟩
    · rintro ⟨grp, hgrp, hg⟩
      exact ⟨grp.after, List.mem_map_of_mem LootGroup.after hgrp, hg⟩
  have hchar : ∀ g, g ∈ testMissingGroups mg ug
      ↔ ((∃ grp ∈ ug, g ∈ grp.after) ∧ g ∉ knownGroups mg ug) := by
    intro g
    unfold testMissingGroups
    rw [List.mem_filter, hused]
    simp
  have hnames : ((fixMissingGroups mg ug up).2.1).map LootGroup.name
      = ug.map LootGroup.name := by
    show ((ug.map _).map LootGroup.name) = ug.map LootGroup.name
    rw [List.map_map]
    rfl
  have hknown : knownGroups mg (fixMissingGroups mg ug up).2.1 = knownGroups mg ug := by
    unfold knownGroups
    rw [hnames]
  refine ⟨hchar, rfl, ?_, ?_⟩
  · unfold testMissingGroups
    rw [List.filter_eq_nil_iff]
    intro g hg
    obtain ⟨grp', hgrp', hgl⟩ := (hused _ g).mp hg
    obtain ⟨grp, hgrp, hfe⟩ := List.mem_map.mp hgrp'
    have hgl' : g ∈ grp.after.filter
        (fun a => decide (a ∉ testMissingGroups mg ug)) := by
      rw [← show grp'.after = grp.after.filter
          (fun a => decide (a ∉ testMissingGroups mg ug)) from by rw [← hfe]]
      exact hgl
    obtain ⟨hga, hgm⟩ := List.mem_filter.mp hgl'
    have hgmiss : g ∉ testMissingGroups mg ug := by simpa using hgm
    have hgknown : g ∈ knownGroups mg ug := by
      by_contra hgk
      exact hgmiss ((hchar g).mpr ⟨⟨grp, hgrp, hga⟩, hgk⟩)
    rw [hknown]
    simpa using hgknown
  · intro p' hp' g hg
    obtain ⟨p, hp, hfp⟩ := List.mem_map.mp hp'
    cases hpg : p.group with
    | none =>
      rw [← hfp, show (match p.group with
          | some g0 => if g0 ∈ testMissingGroups mg ug then (⟨p.name, none⟩ : LootPlugin)
            else p
          | none => p) = p from by rw [hpg]] at hg
      rw [hpg] at hg
      cases hg
    | some g0 =>
      by_cases hg0 : g0 ∈ testMissingGroups mg ug
      · have hfp' : p' = (⟨p.name, none⟩ : LootPlugin) := by
          rw [← hfp, hpg]
          simp [hg0]
        rw [hfp'] at hg
        cases hg
      · have hfp' : p' = p := by
          rw [← hfp, hpg]
          simp [hg0]
        rw [hfp', hpg] at hg
        have hgg : g0 = g := Option.some.inj hg
        rw [← hgg]
        exact hg0

/-- Witness for C8's amended theorem: applying the fix to a userlist whose
single group has a dangling `after` edge leaves a userlist on which the
check reports nothing. -/
theorem C8_missing_groups_witness :
    testMissingGroups []
      (fixMissingGroups [] [⟨("grp").toList, [("g2").toList]⟩] []).2.1 = [] :=
  (C8_missing_groups_amended [] [⟨("grp").toList, [("g2").toList]⟩] []).2.2.1

/-- Counterexample to C1 as stated: for Skyrim (original format, natives
`skyrim.esm`/`update.esm`) with both files empty, deserialization produces
no record at all for the native `skyrim.esm`, let alone an enabled,
front-pinned one. -/
theorem C1_native_counterexample :
    ("skyrim.esm").toList ∈ [("skyrim.esm").toList, ("update.esm").toList]
    ∧ lookupP (deserializeFiles PluginFormat.original
        [("skyrim.esm").toList, ("update.esm").toList] [] [])
        (("skyrim.esm").toList) = none := by
  constructor
  · simp
  · rfl

/-- C1 amended: deserialization never invents native records and does not
pin natives to the front.  In the original format a plugin — native or not —
has a record exactly when its lowercased name appears among the parsed
lines of `loadorder.txt` or `plugins.txt` (for natives this is an iff, and
every record a native gets is enabled); order slots follow file position:
the i-th distinct lowercased `loadorder.txt` line holds slot i.  In the
fallout4 format native plugins are skipped and never receive a record. -/
theorem C1_native_handling_amended (natives : List Str) (loContent plContent : Str) :
    (∀ k ∈ natives,
      ((lookupP (deserializeFiles PluginFormat.original natives loContent plContent)
          k).isSome = true
        ↔ k ∈ ((filterFileData loContent ++ filterFileData plContent).map toLower))
      ∧ (∀ r, lookupP (deserializeFiles PluginFormat.original natives loContent plContent) k
          = some r → r.enabled = true))
    ∧ (∀ (i : ℕ) (h : i < (dedupFirst ((filterFileData loContent).map toLower)).length),
        ∃ r, lookupP (deserializeFiles PluginFormat.original natives loContent plContent)
            ((dedupFirst ((filterFileData loContent).map toLower)).get ⟨i, h⟩) = some r
          ∧ r.loadOrder = (i : Int))
    ∧ (∀ k ∈ natives,
        lookupP (deserializeFiles PluginFormat.fallout4 natives loContent plContent) k
          = none) := by
  refine ⟨?_, ?_, ?_⟩
  · intro k hk
    constructor
    · constructor
      · intro hsome
        rw [Option.isSome_iff_exists] at hsome
        obtain ⟨r, hr⟩ := hsome
        have hr' : lookupP (deserializePure PluginFormat.original natives
            (filterFileData loContent) (filterFileData plContent)) k = some r := hr
        exact deserializePure_original_key_provenance natives _ _ k r hr'
      · intro hmem
        obtain ⟨r, hr, _⟩ := deserializePure_original_native natives
          (filterFileData loContent) (filterFileData plContent) k hk hmem
        show (lookupP (deserializePure PluginFormat.original natives
          (filterFileData loContent) (filterFileData plContent)) k).isSome = true
        rw [hr]
        rfl
    · intro r hr
      have hr' : lookupP (deserializePure PluginFormat.original natives
          (filterFileData loContent) (filterFileData plContent)) k = some r := hr
      have hmem := deserializePure_original_key_provenance natives _ _ k r hr'
      obtain ⟨r2, hr2, hen⟩ := deserializePure_original_native natives
        (filterFileData loContent) (filterFileData plContent) k hk hmem
      have heq : r2 = r := Option.some.inj (hr2.symm.trans hr')
      rw [← heq]
      exact hen
  · intro i h
    exact deserializePure_original_slots natives _ _ i h
  · intro k hk
    exact deserializePure_fallout4_native natives _ _ k hk

/-- Witness for C1's amended theorem: with `skyrim.esm` native and listed in
`loadorder.txt`, the original-format deserialization gives it a record (it
is listed), that record sits at slot 0 (file position), and the
fallout4-format deserialization yields no record for it. -/
theorem C1_native_handling_witness :
    (lookupP (deserializeFiles PluginFormat.original [("skyrim.esm").toList]
        (("skyrim.esm").toList) []) (("skyrim.esm").toList)).isSome = true
    ∧ (∃ r, lookupP (deserializeFiles PluginFormat.original [("skyrim.esm").toList]
        (("skyrim.esm").toList) [])
        ((dedupFirst ((filterFileData (("skyrim.esm").toList)).map toLower)).get
          ⟨0, by decide⟩)
        = some r ∧ r.loadOrder = ((0 : ℕ) : Int))
    ∧ lookupP (deserializeFiles PluginFormat.fallout4 [("skyrim.esm").toList]
        (("skyrim.esm").toList) []) (("skyrim.esm").toList) = none :=
  ⟨((C1_native_handling_amended [("skyrim.esm").toList] (("skyrim.esm").toList) []).1
      (("skyrim.esm").toList) (by decide)).1.mpr (by decide),
   (C1_native_handling_amended [("skyrim.esm").toList] (("skyrim.esm").toList) []).2.1
      0 (by decide),
   (C1_native_handling_amended [("skyrim.esm").toList] (("skyrim.esm").toList) []).2.2
      (("skyrim.esm").toList) (by decide)⟩

/-- Counterexample to C2 as stated: in the fallout4 format the record of a
native plugin does not survive the round trip — it is dropped entirely,
which is not a mere dense re-ranking of `loadOrder`. -/
theorem C2_round_trip_counterexample :
    roundTrip PluginFormat.fallout4 [("fallout4.esm").toList]
      [((("fallout4.esm").toList), ⟨true, 0⟩)] = []
    ∧ denseRank [((("fallout4.esm").toList), ⟨true, 0⟩)]
      = [((("fallout4.esm").toList), ⟨true, 0⟩)] := by
  constructor
  · decide
  · decide

/-- C2 amended: for maps with well-formed lowercase keys (no leading `#` or
`*`, no line separators) the round trip holds as claimed for the original
format provided native records are enabled (the store invariant); for the
fallout4 format it holds after first dropping the native records, which the
on-disk encoding cannot represent. -/
theorem C2_round_trip_amended (natives : List Str) (m : PluginMap)
    (hnodup : (m.map Prod.fst).Nodup)
    (hwf : ∀ p ∈ m, wellFormedName p.1 ∧ toLower p.1 = p.1 ∧ p.1.head? ≠ some '*')
    (hnat : ∀ p ∈ m, p.1 ∈ natives → p.2.enabled = true) :
    roundTrip PluginFormat.original natives m = denseRank m
    ∧ roundTrip PluginFormat.fallout4 natives m
      = denseRankFrom 0 ((sortByLoadOrder m).filter (fun p => !(decide (p.1 ∈ natives)))) :=
  ⟨roundTrip_original_eq natives m hnodup
      (fun p hp => ⟨(hwf p hp).1, (hwf p hp).2.1⟩) hnat,
   roundTrip_fallout4_eq natives m hnodup hwf⟩

/-- Witness for C2's amended theorem at a concrete two-plugin store. -/
theorem C2_round_trip_witness :
    roundTrip PluginFormat.original []
      [((("a.esp").toList), ⟨true, 5⟩), ((("b.esp").toList), ⟨false, 2⟩)]
      = denseRank [((("a.esp").toList), ⟨true, 5⟩), ((("b.esp").toList), ⟨false, 2⟩)] :=
  (C2_round_trip_amended []
    [((("a.esp").toList), ⟨true, 5⟩), ((("b.esp").toList), ⟨false, 2⟩)]
    (by decide) (by decide) (by decide)).1

theorem deserializeM_ioerr_run (fmt : PluginFormat) (natives : List Str)
    (read : ℕ → ReadOutcome) (hread : ∀ n, read n = ReadOutcome.ioerr) :
    ∀ (rc : ℕ) (retry : Bool) (st : DState), st.retryCounter = rc →
      deserializeM fmt natives read retry st
        = reportErrorM { st with
            attempts := st.attempts + rc + 1
            retryCounter := 0
            loaded := true } := by
  intro rc
  induction rc with
  | zero =>
    intro retry st hrc
    obtain ⟨pl, rcf, ld, fl, rp, att⟩ := st
    simp only [] at hrc
    subst hrc
    unfold deserializeM
    simp only [hread]
    simp
  | succ n ihn =>
    intro retry st hrc
    obtain ⟨pl, rcf, ld, fl, rp, att⟩ := st
    simp only [] at hrc
    subst hrc
    unfold deserializeM
    simp only [hread]
    rw [dif_pos (Nat.succ_pos n)]
    rw [ihn false _ (by simp)]
    congr 1
    simp only [DState.mk.injEq]
    exact ⟨trivial, trivial, trivial, trivial, trivial, by omega⟩

/-- Counterexample to C7 as stated: when the primary file is absent
(`ENOENT`) on first read, there is no retry at all (a single read attempt)
and no read-failure notification — the store is silently marked loaded. -/
theorem C7_read_failure_counterexample :
    deserializeM PluginFormat.original [] (fun _ => ReadOutcome.enoent) false
      ⟨[], retryCount, false, false, 0, 0⟩
      = ⟨[], retryCount, true, false, 0, 1⟩ := by
  unfold deserializeM
  rfl

/-- C7 amended: a persistently failing read (other than `ENOENT`) is retried
until the budget is exhausted and then reported exactly once (the `mFailed`
latch suppresses the report when a failure was already reported); an absent
file is treated as loaded silently with no retry; an empty primary file is
re-read exactly once and then parsed as best effort. -/
theorem C7_retry_and_report_amended (fmt : PluginFormat) (natives : List Str)
    (read : ℕ → ReadOutcome) :
    ((∀ n, read n = ReadOutcome.ioerr) → ∀ st : DState, st.failed = false →
      deserializeM fmt natives read false st
        = { st with
            attempts := st.attempts + st.retryCounter + 1
            retryCounter := 0
            loaded := true
            failed := true
            reports := st.reports + 1 })
    ∧ ((∀ n, read n = ReadOutcome.ioerr) → ∀ st : DState, st.failed = true →
      deserializeM fmt natives read false st
        = { st with
            attempts := st.attempts + st.retryCounter + 1
            retryCounter := 0
            loaded := true })
    ∧ (∀ (st : DState) (retry : Bool), read st.attempts = ReadOutcome.enoent →
      deserializeM fmt natives read retry st
        = { st with attempts := st.attempts + 1, loaded := true })
    ∧ (∀ (lo : Str) (st : DState), (∀ n, read n = ReadOutcome.ok lo []) →
      deserializeM fmt natives read false st
        = { st with
            attempts := st.attempts + 2
            plugins := deserializeFiles fmt natives lo []
            loaded := true
            retryCounter := retryCount
            failed := false }) := by
  refine ⟨?_, ?_, ?_, ?_⟩
  · intro hread st hf
    rw [deserializeM_ioerr_run fmt natives read hread st.retryCounter false st rfl]
    obtain ⟨pl, rcf, ld, fl, rp, att⟩ := st
    simp only [] at hf
    subst hf
    unfold reportErrorM
    simp
  · intro hread st hf
    rw [deserializeM_ioerr_run fmt natives read hread st.retryCounter false st rfl]
    obtain ⟨pl, rcf, ld, fl, rp, att⟩ := st
    simp only [] at hf
    subst hf
    unfold reportErrorM
    simp
  · intro st retry h
    unfold deserializeM
    rw [h]
  · intro lo st hread
    unfold deserializeM
    simp only [hread]
    rw [dif_pos (by simp)]
    unfold deserializeM
    simp only [hread]
    rw [dif_neg (by simp)]

/-- Witness for C7's amended theorem: a fresh store (budget 3, nothing yet
reported) facing a persistently failing read performs 4 read attempts in
total and raises exactly one report. -/
theorem C7_retry_witness :
    deserializeM PluginFormat.original [] (fun _ => ReadOutcome.ioerr) false
      ⟨[], retryCount, false, false, 0, 0⟩
      = ⟨[], 0, true, true, 1, 4⟩ :=
  ((C7_retry_and_report_amended PluginFormat.original [] (fun _ => ReadOutcome.ioerr)).1
    (fun _ => rfl) ⟨[], retryCount, false, false, 0, 0⟩ rfl).trans (by decide)

end PluginMgmt
